import Mathlib

/-!
# jemalloc mutex layer (`mutex.h`, `mutex.c`)

A shallow embedding of the fair FIFO mutex and of the deferred mutex
initialisation, followed by theorems about them.

Conventions of the embedding.

* A nullable C pointer is an `Option Nat`; `none` is `NULL`.
* `assert(e)` that fails makes the embedded function return `none`.
* A native `pthread_mutex_t` is abstracted to three observable conditions.
* The C `int` fields `mutex_held` and `num_want_mutex` are integers.  Their
  values stay between zero and the number of live threads, far from the
  32-bit range, so no wrap-around is modelled.
-/

namespace Jemalloc

/-! ## Native primitives -/

/-- Observable condition of a native `pthread_mutex_t`. -/
inductive pthread_mutex_t
  | unconstructed
  | unlocked
  | locked
  deriving DecidableEq, Repr

/-- Effect of a native mutex constructor that returned `rc` on the object it
was given: return code zero leaves a usable, unlocked mutex; any other return
code is taken to leave the object as it was. -/
def native_construct (old : pthread_mutex_t) (rc : Int) : pthread_mutex_t :=
  if rc = 0 then pthread_mutex_t.unlocked else old

/-! ## Singly linked lists -/

/-- The nodes met when following the link `next` from `head` until `NULL`
are exactly the list `l`. -/
def IsChain (next : Nat → Option Nat) : Option Nat → List Nat → Prop
  | head, [] => head = none
  | head, m :: rest => head = some m ∧ IsChain next (next m) rest

instance (next : Nat → Option Nat) (head : Option Nat) (l : List Nat) :
    Decidable (IsChain next head l) := by
  induction l generalizing head with
  | nil => unfold IsChain; infer_instance
  | cons m rest ih => unfold IsChain; infer_instance

/-! ## Deferred initialisation (`JEMALLOC_MUTEX_INIT_CB` configuration) -/

namespace InitCb

/-- The handle `struct malloc_mutex_s` of this configuration. -/
structure malloc_mutex_s where
  lock : pthread_mutex_t
  postponed_next : Option Nat
  deriving DecidableEq, Repr

/-- Process state read and written by `malloc_mutex_init` and `mutex_boot`:
the two static variables of `mutex.c`, the memory holding the handles
(indexed by address), and the log of the calls made to the native constructor
`_pthread_mutex_init_calloc_cb` (handle address and return code, oldest
first). -/
structure State where
  postpone_init : Bool
  postponed_mutexes : Option Nat
  heap : Nat → malloc_mutex_s
  calls : List (Nat × Int)

/-- The static initial values `postpone_init = true` and
`postponed_mutexes = NULL`, over arbitrary handle memory. -/
def State.initial (heap : Nat → malloc_mutex_s) : State :=
  { postpone_init := true, postponed_mutexes := none, heap := heap, calls := [] }

/-- Store `mutex->postponed_next = v`. -/
def set_postponed_next (heap : Nat → malloc_mutex_s) (mutex : Nat) (v : Option Nat) :
    Nat → malloc_mutex_s :=
  fun a => if a = mutex then { heap a with postponed_next := v } else heap a

/-- Call `_pthread_mutex_init_calloc_cb(&mutex->lock, base_calloc)` where the
native constructor answers `rc`: the call is logged and the lock field is
constructed when `rc` is zero. -/
def init_calloc_cb (s : State) (mutex : Nat) (rc : Int) : State :=
  { s with
    heap := fun a =>
      if a = mutex then { s.heap a with lock := native_construct (s.heap a).lock rc }
      else s.heap a
    calls := s.calls ++ [(mutex, rc)] }

/-- `malloc_mutex_init(mutex)`; `cb` gives the return code of the native
constructor for each handle.  The result is the returned `bool` and the new
state. -/
def malloc_mutex_init (cb : Nat → Int) (s : State) (mutex : Nat) : Bool × State :=
  if s.postpone_init then
    (false, { s with
      heap := set_postponed_next s.heap mutex s.postponed_mutexes
      postponed_mutexes := some mutex })
  else
    if cb mutex ≠ 0 then (true, init_calloc_cb s mutex (cb mutex))
    else (false, init_calloc_cb s mutex (cb mutex))

/-- The `while (postponed_mutexes != NULL)` loop of `mutex_boot`, run for at
most `fuel` iterations; `none` means the fuel ran out. -/
def boot_loop (cb : Nat → Int) : Nat → State → Option (Bool × State)
  | fuel, s =>
    match s.postponed_mutexes with
    | none => some (false, s)
    | some m =>
      match fuel with
      | 0 => none
      | fuel + 1 =>
        if cb m ≠ 0 then some (true, init_calloc_cb s m (cb m))
        else
          let s1 := init_calloc_cb s m (cb m)
          boot_loop cb fuel { s1 with postponed_mutexes := (s1.heap m).postponed_next }

/-- `mutex_boot()`. -/
def mutex_boot (cb : Nat → Int) (fuel : Nat) (s : State) : Option (Bool × State) :=
  boot_loop cb fuel { s with postpone_init := false }

/-- Register the handles `hs` one after the other with `malloc_mutex_init`. -/
def register_all (cb : Nat → Int) (s : State) (hs : List Nat) : State :=
  hs.foldl (fun st h => (malloc_mutex_init cb st h).2) s

/-- The registry represents the list `l`: `l` is the list of handles met
when following `postponed_next` from `head` until `NULL`. -/
abbrev IsRegistry (heap : Nat → malloc_mutex_s) (head : Option Nat) (l : List Nat) : Prop :=
  IsChain (fun a => (heap a).postponed_next) head l

end InitCb

/-! ## Fair mutex (default configuration) -/

namespace Fair

/-- The `struct fair_mutex_queue_item_s`: the address of the waiter's
condition variable and the link to the next item. -/
structure fair_mutex_queue_item_s where
  cond : Nat
  next : Option Nat
  deriving DecidableEq, Repr

/-- The `struct fair_mutex_s`; `mutex` is the native guard lock. -/
structure fair_mutex_t where
  mutex : pthread_mutex_t
  mutex_held : Int
  num_want_mutex : Int
  wait_head : Option Nat
  wait_tail : Option Nat
  deriving DecidableEq, Repr

/-- Store `p->next = v` in the memory holding the queue items. -/
def set_next (mem : Nat → fair_mutex_queue_item_s) (p : Nat) (v : Option Nat) :
    Nat → fair_mutex_queue_item_s :=
  fun a => if a = p then { mem a with next := v } else mem a

/-- `enq_item(fm, item)`; `none` when an assertion fails. -/
def enq_item (fm : fair_mutex_t) (mem : Nat → fair_mutex_queue_item_s) (item : Nat) :
    Option (fair_mutex_t × (Nat → fair_mutex_queue_item_s)) :=
  if (mem item).next ≠ none then none
  else
    match fm.wait_tail with
    | some tail => some ({ fm with wait_tail := some item }, set_next mem tail (some item))
    | none =>
      if fm.wait_head ≠ none then none
      else some ({ fm with wait_head := some item, wait_tail := some item }, mem)

/-- `deq_item(fm)`: the new mutex fields and the returned condition-variable
address; `none` when an assertion fails. -/
def deq_item (fm : fair_mutex_t) (mem : Nat → fair_mutex_queue_item_s) :
    Option (fair_mutex_t × Nat) :=
  match fm.wait_head with
  | none => none
  | some item =>
    if fm.wait_tail = none then none
    else
      let fm1 := { fm with wait_head := (mem item).next }
      let fm2 := if fm1.wait_tail = some item then { fm1 with wait_tail := none } else fm1
      some (fm2, (mem item).cond)

/-- `fair_mutex_create(fm)`; `rc` is what `pthread_mutex_init` returned for
the guard lock, a value the function discards. -/
def fair_mutex_create (fm : fair_mutex_t) (rc : Int) : fair_mutex_t :=
  { mutex := native_construct fm.mutex rc
    mutex_held := 0
    num_want_mutex := 0
    wait_head := none
    wait_tail := none }

/-- First critical section of `fair_mutex_lock(fm)`, from taking the guard
lock to either the return (fast path, flag `true`) or the blocking
`pthread_cond_wait` (slow path, flag `false`).  `item` and `cond` are the
addresses of the two locals of the call.  `none` when an assertion fails. -/
def fair_mutex_lock_enter (fm : fair_mutex_t) (mem : Nat → fair_mutex_queue_item_s)
    (item cond : Nat) : Option (fair_mutex_t × (Nat → fair_mutex_queue_item_s) × Bool) :=
  if fm.mutex_held = 0 ∧ fm.num_want_mutex = 0 then
    some ({ fm with mutex_held := 1 }, mem, true)
  else
    let mem1 := fun a => if a = item then { cond := cond, next := none } else mem a
    match enq_item fm mem1 item with
    | none => none
    | some (fm1, mem2) =>
      some ({ fm1 with num_want_mutex := fm1.num_want_mutex + 1 }, mem2, false)

/-- Second critical section of `fair_mutex_lock(fm)`, from the return of
`pthread_cond_wait` to the return of the call.  `none` when an assertion
fails. -/
def fair_mutex_lock_resume (fm : fair_mutex_t) : Option fair_mutex_t :=
  if ¬ (fm.num_want_mutex > 0) then none
  else if fm.mutex_held ≠ 0 then none
  else some { fm with num_want_mutex := fm.num_want_mutex - 1, mutex_held := 1 }

/-- `fair_mutex_unlock(fm)`: the new mutex fields and the condition variable
passed to `pthread_cond_signal`, if the call signals.  `none` when an
assertion fails. -/
def fair_mutex_unlock (fm : fair_mutex_t) (mem : Nat → fair_mutex_queue_item_s) :
    Option (fair_mutex_t × Option Nat) :=
  let fm1 := { fm with mutex_held := 0 }
  if fm1.wait_head ≠ none then
    if ¬ (fm1.num_want_mutex > 0) then none
    else
      match deq_item fm1 mem with
      | none => none
      | some (fm2, cond) => some (fm2, some cond)
  else
    if fm1.num_want_mutex ≠ 0 then none
    else some (fm1, none)

/-- `fair_mutex_users(fm)`. -/
def fair_mutex_users (fm : fair_mutex_t) : Int :=
  fm.mutex_held + fm.num_want_mutex

/-- `fair_mutex_blocked_users(fm)`. -/
def fair_mutex_blocked_users (fm : fair_mutex_t) : Int :=
  fm.num_want_mutex

/-- The wait queue represents the list `q` of item addresses. -/
abbrev IsQueue (mem : Nat → fair_mutex_queue_item_s) (head : Option Nat) (q : List Nat) : Prop :=
  IsChain (fun a => (mem a).next) head q

/-! ### Threads -/

/-- Where a thread stands with respect to one fair mutex: outside of it,
blocked in the `pthread_cond_wait` of `fair_mutex_lock`, blocked there with
its condition variable already signalled, or between the return of
`fair_mutex_lock` and its call of `fair_mutex_unlock`. -/
inductive ThreadState
  | idle
  | waiting
  | signalled
  | holding
  deriving DecidableEq, Repr

/-- One fair mutex, the memory holding the queue items, the state of every
thread, and two history lists that no step reads: the callers in the order
they entered `fair_mutex_lock`, and in the order they returned from it. -/
structure System where
  fm : fair_mutex_t
  mem : Nat → fair_mutex_queue_item_s
  pc : Nat → ThreadState
  entered : List Nat
  returned : List Nat

/-- One atomic step of a thread: a section of code run under the guard
lock. -/
inductive Event
  | lock (t : Nat)
  | resume (t : Nat)
  | unlock (t : Nat)
  deriving DecidableEq, Repr

/-- Why a step does not produce a state. -/
inductive Fault
  | disabled
  | assertion
  deriving DecidableEq, Repr

/-- Set the state of thread `t`. -/
def set_pc (pc : Nat → ThreadState) (t : Nat) (v : ThreadState) : Nat → ThreadState :=
  fun u => if u = t then v else pc u

/-- `pthread_cond_signal(cond)`: the thread blocked on `cond`, if there is
one, becomes signalled.  The condition variable of a call of
`fair_mutex_lock` is named by the calling thread. -/
def pthread_cond_signal (pc : Nat → ThreadState) (cond : Nat) : Nat → ThreadState :=
  fun u => if u = cond ∧ pc u = ThreadState.waiting then ThreadState.signalled else pc u

/-- One step of the system.  A thread outside the mutex may call
`fair_mutex_lock`; its queue item and its condition variable, locals of the
call, are named by the thread.  A signalled waiter may resume.  The holder may
call `fair_mutex_unlock`.  Each needs the guard lock to be free.  Any other
step is `disabled`; a failed assertion is reported as `assertion`. -/
def step (s : System) : Event → Except Fault System
  | Event.lock t =>
    if s.pc t ≠ ThreadState.idle ∨ s.fm.mutex ≠ pthread_mutex_t.unlocked then
      Except.error Fault.disabled
    else
      match fair_mutex_lock_enter s.fm s.mem t t with
      | none => Except.error Fault.assertion
      | some (fm, mem, true) =>
        Except.ok { fm := fm, mem := mem, pc := set_pc s.pc t ThreadState.holding
                    entered := s.entered ++ [t], returned := s.returned ++ [t] }
      | some (fm, mem, false) =>
        Except.ok { fm := fm, mem := mem, pc := set_pc s.pc t ThreadState.waiting
                    entered := s.entered ++ [t], returned := s.returned }
  | Event.resume t =>
    if s.pc t ≠ ThreadState.signalled ∨ s.fm.mutex ≠ pthread_mutex_t.unlocked then
      Except.error Fault.disabled
    else
      match fair_mutex_lock_resume s.fm with
      | none => Except.error Fault.assertion
      | some fm =>
        Except.ok { s with fm := fm, pc := set_pc s.pc t ThreadState.holding
                           returned := s.returned ++ [t] }
  | Event.unlock t =>
    if s.pc t ≠ ThreadState.holding ∨ s.fm.mutex ≠ pthread_mutex_t.unlocked then
      Except.error Fault.disabled
    else
      match fair_mutex_unlock s.fm s.mem with
      | none => Except.error Fault.assertion
      | some (fm, none) =>
        Except.ok { s with fm := fm, pc := set_pc s.pc t ThreadState.idle }
      | some (fm, some cond) =>
        Except.ok { s with fm := fm
                           pc := pthread_cond_signal (set_pc s.pc t ThreadState.idle) cond }

/-- Run a schedule, one step per event. -/
def run (s : System) : List Event → Except Fault System
  | [] => Except.ok s
  | e :: es =>
    match step s e with
    | Except.ok s1 => run s1 es
    | Except.error f => Except.error f

/-- The system right after `fair_mutex_create` succeeded in constructing the
guard lock: no thread is inside the mutex. -/
def System.create (fm : fair_mutex_t) (mem : Nat → fair_mutex_queue_item_s) : System :=
  { fm := fair_mutex_create fm 0, mem := mem, pc := fun _ => ThreadState.idle
    entered := [], returned := [] }

/-- The link between the concrete state and its abstract reading: `q` is the
wait queue, `w` the waiter that was dequeued and signalled and has not resumed
yet (if any), `hd` the thread between `fair_mutex_lock` and
`fair_mutex_unlock` (if any). -/
structure Inv (s : System) (q : List Nat) (w hd : Option Nat) : Prop where
  guard : s.fm.mutex = pthread_mutex_t.unlocked
  queue : IsQueue s.mem s.fm.wait_head q
  tail : s.fm.wait_tail = q.getLast?
  waiting : ∀ t, s.pc t = ThreadState.waiting ↔ t ∈ q
  signalled : ∀ t, s.pc t = ThreadState.signalled ↔ w = some t
  holding : ∀ t, s.pc t = ThreadState.holding ↔ hd = some t
  held : s.fm.mutex_held = if hd.isSome then 1 else 0
  want : s.fm.num_want_mutex = (q.length : Int) + (w.toList.length : Int)
  excl : hd.isSome → w = none
  cond : ∀ t ∈ q, (s.mem t).cond = t
  hist : s.entered = s.returned ++ w.toList ++ q

/-! ### The handle and the fork hooks -/

/-- The handle `struct malloc_mutex_s` of this configuration. -/
structure malloc_mutex_s where
  lock : fair_mutex_t
  deriving DecidableEq, Repr

/-- `malloc_mutex_init(mutex)`: the returned `bool` and the new handle. -/
def malloc_mutex_init (mutex : malloc_mutex_s) (rc : Int) : Bool × malloc_mutex_s :=
  (false, { lock := fair_mutex_create mutex.lock rc })

/-- `malloc_mutex_postfork_child(mutex)`; `none` is the call of `abort()`. -/
def malloc_mutex_postfork_child (mutex : malloc_mutex_s) (rc : Int) (opt_abort : Bool) :
    Option malloc_mutex_s :=
  match malloc_mutex_init mutex rc with
  | (true, m) => if opt_abort then none else some m
  | (false, m) => some m

/-! ### The threading gate -/

/-- `malloc_mutex_lock(mutex)` by thread `t`, up to the return of the call or
to the wait inside `fair_mutex_lock`; `isthreaded` is the value of the
threading gate read by the call. -/
def malloc_mutex_lock (isthreaded : Bool) (s : System) (t : Nat) : Except Fault System :=
  if isthreaded then step s (Event.lock t) else Except.ok s

/-- `malloc_mutex_unlock(mutex)` by thread `t`. -/
def malloc_mutex_unlock (isthreaded : Bool) (s : System) (t : Nat) : Except Fault System :=
  if isthreaded then step s (Event.unlock t) else Except.ok s

/-- `malloc_mutex_prefork(mutex)`. -/
def malloc_mutex_prefork (isthreaded : Bool) (s : System) (t : Nat) : Except Fault System :=
  malloc_mutex_lock isthreaded s t

/-- `malloc_mutex_postfork_parent(mutex)`. -/
def malloc_mutex_postfork_parent (isthreaded : Bool) (s : System) (t : Nat) :
    Except Fault System :=
  malloc_mutex_unlock isthreaded s t

/-! ### A wait that returns without a signal -/

/-- The step a waiter takes when its `pthread_cond_wait` returns although
nobody signalled its condition variable: the code after the wait in
`fair_mutex_lock` runs as it does after a signal. -/
def spurious_wake (s : System) (t : Nat) : Except Fault System :=
  if s.pc t ≠ ThreadState.waiting ∨ s.fm.mutex ≠ pthread_mutex_t.unlocked then
    Except.error Fault.disabled
  else
    match fair_mutex_lock_resume s.fm with
    | none => Except.error Fault.assertion
    | some fm =>
      Except.ok { s with fm := fm, pc := set_pc s.pc t ThreadState.holding
                         returned := s.returned ++ [t] }

/-! ### The wait queue as a list -/

/-- The linked queue of `fm` is well formed and holds the items `q`, head
first: following `next` from `wait_head` meets exactly `q` and then `NULL`,
and `wait_tail` is the last item of `q`, or `NULL` when `q` is empty. -/
def QueueRep (fm : fair_mutex_t) (mem : Nat → fair_mutex_queue_item_s) (q : List Nat) : Prop :=
  IsQueue mem fm.wait_head q ∧ fm.wait_tail = q.getLast?

/-- FIFO list of the design, enqueue: the item is appended at the tail. -/
def fifo_enq (q : List Nat) (item : Nat) : List Nat :=
  q ++ [item]

/-- FIFO list of the design, dequeue: the head is removed and returned. -/
def fifo_deq : List Nat → Option (Nat × List Nat)
  | [] => none
  | x :: q => some (x, q)

/-- Call `enq_item` on each of `items` in turn. -/
def enq_items (fm : fair_mutex_t) (mem : Nat → fair_mutex_queue_item_s) :
    List Nat → Option (fair_mutex_t × (Nat → fair_mutex_queue_item_s))
  | [] => some (fm, mem)
  | item :: items =>
    match enq_item fm mem item with
    | none => none
    | some (fm1, mem1) => enq_items fm1 mem1 items

/-- Call `deq_item` `n` times and collect the returned condition variables in
the order of the calls. -/
def deq_items (fm : fair_mutex_t) (mem : Nat → fair_mutex_queue_item_s) :
    Nat → Option (fair_mutex_t × List Nat)
  | 0 => some (fm, [])
  | n + 1 =>
    match deq_item fm mem with
    | none => none
    | some (fm1, cond) =>
      match deq_items fm1 mem n with
      | none => none
      | some (fm2, conds) => some (fm2, cond :: conds)

end Fair

end Jemalloc

/-! # Theorems -/

namespace Jemalloc

/-! ## Linked-list lemmas -/

theorem IsChain.head_eq {next : Nat → Option Nat} {head : Option Nat} {l : List Nat}
    (h : IsChain next head l) : head = l.head? := by
  cases l with
  | nil => simpa [IsChain] using h
  | cons m rest => simpa [IsChain] using h.1

theorem IsChain.congr {next next1 : Nat → Option Nat} {l : List Nat} :
    ∀ {head : Option Nat},
      (∀ m ∈ l, next1 m = next m) →
      IsChain next head l → IsChain next1 head l := by
  induction l with
  | nil => intro head _ h; simpa [IsChain] using h
  | cons m rest ih =>
    intro head hn h
    refine ⟨h.1, ?_⟩
    rw [hn m (List.mem_cons_self _ _)]
    exact ih (fun a ha => hn a (List.mem_cons_of_mem _ ha)) h.2

theorem IsChain.unique {next : Nat → Option Nat} {l1 : List Nat} :
    ∀ {head : Option Nat} {l2 : List Nat},
      IsChain next head l1 → IsChain next head l2 → l1 = l2 := by
  induction l1 with
  | nil =>
    intro head l2 h1 h2
    cases l2 with
    | nil => rfl
    | cons m rest =>
      have a : head = none := by simpa [IsChain] using h1
      have b := h2.1
      rw [a] at b
      cases b
  | cons m rest ih =>
    intro head l2 h1 h2
    cases l2 with
    | nil =>
      have a : head = none := by simpa [IsChain] using h2
      have b := h1.1
      rw [a] at b
      cases b
    | cons m2 rest2 =>
      have e : m = m2 := by
        have a := h1.1
        have b := h2.1
        rw [a] at b
        exact Option.some.inj b
      subst e
      rw [ih h1.2 h2.2]

theorem IsChain.drop_prefix {next : Nat → Option Nat} {pre : List Nat} :
    ∀ {head : Option Nat} {rest : List Nat},
      IsChain next head (pre ++ rest) → ∃ head1, IsChain next head1 rest := by
  induction pre with
  | nil => intro head rest h; exact ⟨head, by simpa using h⟩
  | cons m pre ih => intro head rest h; exact ih h.2

theorem IsChain.nodup {next : Nat → Option Nat} {l : List Nat} :
    ∀ {head : Option Nat}, IsChain next head l → l.Nodup := by
  induction l with
  | nil => intro _ _; exact List.nodup_nil
  | cons m rest ih =>
    intro head h
    refine List.nodup_cons.mpr ⟨?_, ih h.2⟩
    intro hm
    obtain ⟨a, b, hab⟩ := List.append_of_mem hm
    have h2 := h.2
    rw [hab] at h2
    obtain ⟨head1, h3⟩ := IsChain.drop_prefix h2
    have h4 : IsChain next (next m) b := h3.2
    have h5 := IsChain.unique h4 h2
    have h6 := congrArg List.length h5
    simp at h6
    omega

theorem IsChain.snoc {next next1 : Nat → Option Nat} {tl item : Nat}
    (hn : next item = none)
    (hnext1 : ∀ a, next1 a = if a = tl then some item else next a) :
    ∀ {q0 : List Nat} {head : Option Nat},
      IsChain next head (q0 ++ [tl]) → item ∉ q0 ++ [tl] →
      IsChain next1 head (q0 ++ [tl] ++ [item]) := by
  intro q0
  induction q0 with
  | nil =>
    intro head h hfresh
    have hne : item ≠ tl := by
      intro e; exact hfresh (by simp [e])
    refine ⟨h.1, ?_, ?_⟩
    · simp [hnext1]
    · show next1 item = none
      rw [hnext1, if_neg hne, hn]
  | cons m q0 ih =>
    intro head h hfresh
    have hnd := IsChain.nodup h
    have hm : m ≠ tl := by
      intro e
      have := (List.nodup_cons.mp hnd).1
      exact this (by simp [e])
    refine ⟨h.1, ?_⟩
    have e : next1 m = next m := by rw [hnext1, if_neg hm]
    rw [e]
    exact ih h.2 (fun hin => hfresh (List.mem_cons_of_mem _ hin))

/-- Two nodes linked to each other are the head of no finite list. -/
theorem IsChain.no_list_of_two_cycle {next : Nat → Option Nat} {a b : Nat}
    (hab : next a = some b) (hba : next b = some a) :
    ∀ l : List Nat, ¬ IsChain next (some a) l ∧ ¬ IsChain next (some b) l := by
  intro l
  induction l with
  | nil => constructor <;> (intro h; cases h)
  | cons m rest ih =>
    constructor
    · intro h
      have e : a = m := Option.some.inj h.1
      have h2 := h.2
      rw [← e, hab] at h2
      exact ih.2 h2
    · intro h
      have e : b = m := Option.some.inj h.1
      have h2 := h.2
      rw [← e, hba] at h2
      exact ih.1 h2

namespace InitCb

/-! ## The boot loop -/

theorem boot_loop_none (cb : Nat → Int) (fuel : Nat) (s : State)
    (h : s.postponed_mutexes = none) : boot_loop cb fuel s = some (false, s) := by
  unfold boot_loop
  simp [h]

theorem boot_loop_fail (cb : Nat → Int) (fuel : Nat) (s : State) (m : Nat)
    (h : s.postponed_mutexes = some m) (hcb : cb m ≠ 0) :
    boot_loop cb (fuel + 1) s = some (true, init_calloc_cb s m (cb m)) := by
  rw [boot_loop]
  simp [h, hcb]

theorem boot_loop_ok (cb : Nat → Int) (fuel : Nat) (s : State) (m : Nat)
    (h : s.postponed_mutexes = some m) (hcb : cb m = 0) :
    boot_loop cb (fuel + 1) s =
      boot_loop cb fuel
        { init_calloc_cb s m 0 with postponed_mutexes := (s.heap m).postponed_next } := by
  rw [boot_loop]
  simp [h, hcb, init_calloc_cb]

/-- Draining a prefix of the registry on which the constructor succeeds. -/
theorem boot_loop_drain (cb : Nat → Int) (rest : List Nat) :
    ∀ (pre : List Nat) (s : State) (fuel : Nat),
      IsRegistry s.heap s.postponed_mutexes (pre ++ rest) → (∀ m ∈ pre, cb m = 0) →
      ∃ s1, boot_loop cb (pre.length + fuel) s = boot_loop cb fuel s1 ∧
        s1.postpone_init = s.postpone_init ∧
        IsRegistry s1.heap s1.postponed_mutexes rest ∧
        s1.calls = s.calls ++ pre.map (fun m => (m, (0 : Int))) ∧
        (∀ a, (s1.heap a).postponed_next = (s.heap a).postponed_next) ∧
        (∀ a, a ∉ pre → (s1.heap a).lock = (s.heap a).lock) ∧
        (∀ a, a ∈ pre → (s1.heap a).lock = pthread_mutex_t.unlocked) := by
  intro pre
  induction pre with
  | nil =>
    intro s fuel h _
    exact ⟨s, by simp, rfl, by simpa using h, by simp, fun _ => rfl, fun _ _ => rfl,
      fun a ha => by simp at ha⟩
  | cons m pre ih =>
    intro s fuel h hcb
    have hm : cb m = 0 := hcb m (List.mem_cons_self _ _)
    have hhead : s.postponed_mutexes = some m := h.1
    have hstep : boot_loop cb ((m :: pre).length + fuel) s =
        boot_loop cb (pre.length + fuel)
          { init_calloc_cb s m 0 with postponed_mutexes := (s.heap m).postponed_next } := by
      have e : (m :: pre).length + fuel = (pre.length + fuel) + 1 := by
        simp only [List.length_cons]; omega
      rw [e]
      exact boot_loop_ok cb _ s m hhead hm
    have hreg : IsRegistry (init_calloc_cb s m 0).heap (s.heap m).postponed_next (pre ++ rest) := by
      refine IsChain.congr ?_ h.2
      intro a _
      simp only [init_calloc_cb]
      split <;> rfl
    obtain ⟨s1, h1, h2, h3, h4, h5, h6, h7⟩ :=
      ih { init_calloc_cb s m 0 with postponed_mutexes := (s.heap m).postponed_next } fuel hreg
        (fun a ha => hcb a (List.mem_cons_of_mem _ ha))
    refine ⟨s1, hstep.trans h1, h2, h3, ?_, ?_, ?_, ?_⟩
    · rw [h4]; simp [init_calloc_cb]
    · intro a
      rw [h5 a]
      simp only [init_calloc_cb]
      split <;> rfl
    · intro a ha
      have ha1 : a ≠ m := fun e => ha (e ▸ List.mem_cons_self _ _)
      have ha2 : a ∉ pre := fun e => ha (List.mem_cons_of_mem _ e)
      rw [h6 a ha2]
      simp [init_calloc_cb, ha1]
    · intro a ha
      by_cases hp : a ∈ pre
      · exact h7 a hp
      · have e : a = m := by
          rcases List.mem_cons.mp ha with e | e
          · exact e
          · exact absurd e hp
        rw [h6 a hp]
        simp [init_calloc_cb, e, native_construct]

/-! ## Registration while postponed -/

theorem malloc_mutex_init_postponed (cb : Nat → Int) (s : State) (mutex : Nat)
    (hp : s.postpone_init = true) :
    malloc_mutex_init cb s mutex =
      (false, { s with
        heap := set_postponed_next s.heap mutex s.postponed_mutexes
        postponed_mutexes := some mutex }) := by
  simp [malloc_mutex_init, hp]

theorem IsRegistry.push {heap : Nat → malloc_mutex_s} {head : Option Nat} {l : List Nat}
    (h : IsRegistry heap head l) (mutex : Nat) (hm : mutex ∉ l) :
    IsRegistry (set_postponed_next heap mutex head) (some mutex) (mutex :: l) := by
  refine ⟨rfl, ?_⟩
  have e : (set_postponed_next heap mutex head mutex).postponed_next = head := by
    simp [set_postponed_next]
  show IsChain _ (set_postponed_next heap mutex head mutex).postponed_next l
  rw [e]
  refine IsChain.congr ?_ h
  intro a ha
  have : a ≠ mutex := fun e => hm (e ▸ ha)
  simp [set_postponed_next, this]

/-- Registering distinct fresh handles while postponed stacks them on the
registry, the last one registered first. -/
theorem register_all_spec (cb : Nat → Int) :
    ∀ (hs : List Nat) (s : State) (l : List Nat),
      s.postpone_init = true → IsRegistry s.heap s.postponed_mutexes l →
      hs.Nodup → (∀ h ∈ hs, h ∉ l) →
      (register_all cb s hs).postpone_init = true ∧
      IsRegistry (register_all cb s hs).heap (register_all cb s hs).postponed_mutexes
        (hs.reverse ++ l) ∧
      (register_all cb s hs).calls = s.calls ∧
      (∀ a, ((register_all cb s hs).heap a).lock = (s.heap a).lock) := by
  intro hs
  induction hs with
  | nil => intro s l hp hr _ _; exact ⟨hp, by simpa [register_all] using hr, rfl, fun _ => rfl⟩
  | cons h hs ih =>
    intro s l hp hr hnd hfresh
    have hstep : register_all cb s (h :: hs) =
        register_all cb { s with
          heap := set_postponed_next s.heap h s.postponed_mutexes
          postponed_mutexes := some h } hs := by
      simp [register_all, malloc_mutex_init_postponed cb s h hp]
    rw [hstep]
    have hnd2 := List.nodup_cons.mp hnd
    obtain ⟨a1, a2, a3, a4⟩ := ih { s with
          heap := set_postponed_next s.heap h s.postponed_mutexes
          postponed_mutexes := some h } (h :: l) hp
      (IsRegistry.push hr h (hfresh h (List.mem_cons_self _ _))) hnd2.2
      (fun x hx => by
        intro hmem
        rcases List.mem_cons.mp hmem with e | e
        · exact hnd2.1 (e ▸ hx)
        · exact hfresh x (List.mem_cons_of_mem _ hx) e)
    refine ⟨a1, ?_, a3, ?_⟩
    · simpa using a2
    · intro a
      rw [a4 a]
      simp only [set_postponed_next]
      split <;> rfl

/-- Booting after registering distinct handles from the initial state, with
a constructor that succeeds on each of them. -/
theorem boot_after_register (cb0 cb : Nat → Int) (heap : Nat → malloc_mutex_s)
    (hs : List Nat) (hnd : hs.Nodup) (hok : ∀ h ∈ hs, cb h = 0)
    (fuel : Nat) (hfuel : hs.length ≤ fuel) :
    ∃ s1, mutex_boot cb fuel (register_all cb0 (State.initial heap) hs) = some (false, s1) ∧
      s1.calls = hs.reverse.map (fun h => (h, (0 : Int))) ∧
      s1.postpone_init = false ∧ s1.postponed_mutexes = none ∧
      (∀ h ∈ hs, (s1.heap h).lock = pthread_mutex_t.unlocked) ∧
      (∀ a, a ∉ hs → (s1.heap a).lock = (heap a).lock) := by
  obtain ⟨_, r2, r3, r4⟩ := register_all_spec cb0 hs (State.initial heap) [] rfl rfl hnd
    (fun _ _ => List.not_mem_nil _)
  obtain ⟨s1, d1, d2, d3, d4, _, d6, d7⟩ :=
    boot_loop_drain cb [] hs.reverse
      { register_all cb0 (State.initial heap) hs with postpone_init := false }
      (fuel - hs.length) r2 (fun m hm => hok m (List.mem_reverse.mp hm))
  have hf : hs.reverse.length + (fuel - hs.length) = fuel := by
    rw [List.length_reverse]; omega
  rw [hf] at d1
  have hnone : s1.postponed_mutexes = none := by simpa [IsRegistry] using d3
  refine ⟨s1, ?_, ?_, d2, hnone, ?_, ?_⟩
  · unfold mutex_boot
    rw [d1]
    exact boot_loop_none cb _ s1 hnone
  · rw [d4]
    have : (register_all cb0 (State.initial heap) hs).calls = [] := r3
    simp [this]
  · intro h hh
    exact d7 h (List.mem_reverse.mpr hh)
  · intro a ha
    rw [d6 a (fun hm => ha (List.mem_reverse.mp hm))]
    exact r4 a

/-- What a run of the boot loop returns: the calls it made extend the log,
and it reports failure exactly when one of them failed; on success the
registry is empty. -/
theorem boot_loop_result (cb : Nat → Int) :
    ∀ (fuel : Nat) (s : State) (r : Bool) (s1 : State),
      boot_loop cb fuel s = some (r, s1) →
      s1.postpone_init = s.postpone_init ∧
      (r = false → s1.postponed_mutexes = none) ∧
      ∃ made, s1.calls = s.calls ++ made ∧ (r = true ↔ ∃ c ∈ made, c.2 ≠ 0) := by
  intro fuel
  induction fuel with
  | zero =>
    intro s r s1 h
    cases hh : s.postponed_mutexes with
    | none =>
      rw [boot_loop_none cb 0 s hh] at h
      obtain ⟨rfl, rfl⟩ := Prod.mk.inj (Option.some.inj h)
      exact ⟨rfl, fun _ => hh, [], by simp, by simp⟩
    | some m =>
      rw [boot_loop] at h
      simp [hh] at h
  | succ fuel ih =>
    intro s r s1 h
    cases hh : s.postponed_mutexes with
    | none =>
      rw [boot_loop_none cb _ s hh] at h
      obtain ⟨rfl, rfl⟩ := Prod.mk.inj (Option.some.inj h)
      exact ⟨rfl, fun _ => hh, [], by simp, by simp⟩
    | some m =>
      by_cases hcb : cb m = 0
      · rw [boot_loop_ok cb fuel s m hh hcb] at h
        obtain ⟨i1, i2, made, i3, i4⟩ := ih _ r s1 h
        refine ⟨i1, i2, (m, 0) :: made, ?_, ?_⟩
        · rw [i3]; simp [init_calloc_cb]
        · rw [i4]; simp
      · rw [boot_loop_fail cb fuel s m hh hcb] at h
        obtain ⟨rfl, rfl⟩ := Prod.mk.inj (Option.some.inj h)
        refine ⟨rfl, fun hr => Bool.noConfusion hr, [(m, cb m)], rfl, ?_⟩
        simp [hcb]

/-! ## Claims on deferred initialisation -/

/-- C3, as stated, fails: after registering handles 1 then 2 while postponed,
a boot whose constructor always succeeds constructs handle 2 first and
handle 1 second, which is not the registration order. -/
theorem c3_registration_order_counterexample :
    (mutex_boot (fun _ => 0) 2
        (register_all (fun _ => 0)
          (State.initial (fun _ => ⟨pthread_mutex_t.unconstructed, none⟩)) [1, 2])).map
      (fun r => (r.1, r.2.calls.map Prod.fst)) = some (false, [2, 1]) ∧
    (mutex_boot (fun _ => 0) 2
        (register_all (fun _ => 0)
          (State.initial (fun _ => ⟨pthread_mutex_t.unconstructed, none⟩)) [1, 2])).map
      (fun r => r.2.calls.map Prod.fst) ≠ some [1, 2] := by
  constructor
  · rfl
  · intro h
    have e : (mutex_boot (fun _ => 0) 2
        (register_all (fun _ => 0)
          (State.initial (fun _ => ⟨pthread_mutex_t.unconstructed, none⟩)) [1, 2])).map
      (fun r => r.2.calls.map Prod.fst) = some [2, 1] := rfl
    rw [e] at h
    exact absurd h (by decide)

/-- C3, amended: for distinct handles `hs` registered with `malloc_mutex_init`
from the initial (postponed) state, a `mutex_boot` whose constructor succeeds
on each of them returns, given fuel for one iteration per handle, and the
constructor calls it made are exactly those on the handles in reverse
registration order, each answering zero. -/
theorem c3_boot_constructs_in_reverse_registration_order
    (cb0 cb : Nat → Int) (heap : Nat → malloc_mutex_s) (hs : List Nat)
    (hnd : hs.Nodup) (hok : ∀ h ∈ hs, cb h = 0) (fuel : Nat) (hfuel : hs.length ≤ fuel) :
    ∃ s1, mutex_boot cb fuel (register_all cb0 (State.initial heap) hs) = some (false, s1) ∧
      s1.calls.map Prod.fst = hs.reverse ∧
      s1.calls = hs.reverse.map (fun h => (h, (0 : Int))) := by
  obtain ⟨s1, h1, h2, _⟩ := boot_after_register cb0 cb heap hs hnd hok fuel hfuel
  refine ⟨s1, h1, ?_, h2⟩
  rw [h2, List.map_map]
  simp [Function.comp_def]

theorem c3_boot_constructs_in_reverse_registration_order_witness :
    ([1, 2, 3] : List Nat).Nodup ∧
    ∃ s1, mutex_boot (fun _ => 0) 3
        (register_all (fun _ => 7)
          (State.initial (fun _ => ⟨pthread_mutex_t.unconstructed, none⟩)) [1, 2, 3])
        = some (false, s1) ∧
      s1.calls.map Prod.fst = [1, 2, 3].reverse ∧
      s1.calls = [1, 2, 3].reverse.map (fun h => (h, (0 : Int))) :=
  ⟨by decide,
   c3_boot_constructs_in_reverse_registration_order (fun _ => 7) (fun _ => 0)
    (fun _ => ⟨pthread_mutex_t.unconstructed, none⟩) [1, 2, 3] (by decide)
    (fun _ _ => rfl) 3 (by decide)⟩

/-- C4: for distinct handles `hs` registered with `malloc_mutex_init` from
the initial (postponed) state, a `mutex_boot` whose constructor succeeds on
each of them returns `false`, makes exactly `hs.length` constructor calls,
one on each registered handle and none on any other handle, leaves every
registered handle constructed and every other lock untouched, clears
`postpone_init` and leaves `postponed_mutexes` null. -/
theorem c4_boot_constructs_each_registered_handle_once
    (cb0 cb : Nat → Int) (heap : Nat → malloc_mutex_s) (hs : List Nat)
    (hnd : hs.Nodup) (hok : ∀ h ∈ hs, cb h = 0) (fuel : Nat) (hfuel : hs.length ≤ fuel) :
    ∃ s1, mutex_boot cb fuel (register_all cb0 (State.initial heap) hs) = some (false, s1) ∧
      s1.calls.length = hs.length ∧
      (∀ h, (s1.calls.map Prod.fst).count h = if h ∈ hs then 1 else 0) ∧
      (∀ h ∈ hs, (s1.heap h).lock = pthread_mutex_t.unlocked) ∧
      (∀ a, a ∉ hs → (s1.heap a).lock = (heap a).lock) ∧
      s1.postpone_init = false ∧ s1.postponed_mutexes = none ∧
      IsRegistry s1.heap s1.postponed_mutexes [] := by
  obtain ⟨s1, h1, h2, h3, h4, h5, h6⟩ := boot_after_register cb0 cb heap hs hnd hok fuel hfuel
  have hfst : s1.calls.map Prod.fst = hs.reverse := by
    rw [h2, List.map_map]
    simp [Function.comp_def]
  refine ⟨s1, h1, ?_, ?_, h5, h6, h3, h4, h4⟩
  · rw [h2]; simp
  · intro h
    rw [hfst, List.count_reverse, List.count_eq_of_nodup hnd]

theorem c4_boot_constructs_each_registered_handle_once_witness :
    ([4, 9] : List Nat).Nodup ∧
    ∃ s1, mutex_boot (fun _ => 0) 5
        (register_all (fun _ => 0)
          (State.initial (fun _ => ⟨pthread_mutex_t.unconstructed, some 4⟩)) [4, 9])
        = some (false, s1) ∧
      s1.calls.length = [4, 9].length ∧
      (∀ h, (s1.calls.map Prod.fst).count h = if h ∈ [4, 9] then 1 else 0) ∧
      (∀ h ∈ [4, 9], (s1.heap h).lock = pthread_mutex_t.unlocked) ∧
      (∀ a, a ∉ [4, 9] →
        (s1.heap a).lock = pthread_mutex_t.unconstructed) ∧
      s1.postpone_init = false ∧ s1.postponed_mutexes = none ∧
      IsRegistry s1.heap s1.postponed_mutexes [] :=
  ⟨by decide,
   c4_boot_constructs_each_registered_handle_once (fun _ => 0) (fun _ => 0)
    (fun _ => ⟨pthread_mutex_t.unconstructed, some 4⟩) [4, 9] (by decide)
    (fun _ _ => rfl) 5 (by decide)⟩

/-- C5: when the registry lists `pre ++ e :: post`, the constructor succeeds
on every handle of `pre` and fails on `e`, then `mutex_boot` (with fuel for
the iterations it runs) returns `true`; the constructor calls it made are
those on `pre` followed by the failed one on `e`, so none on a handle of
`post`; afterwards the registry lists `e :: post` and the locks of `e` and of
`post` are what they were before the boot.  Moreover any `mutex_boot` that
returns reports failure if and only if one of the calls it made failed. -/
theorem c5_boot_failure_stops_drain
    (cb : Nat → Int) (s : State) (pre post : List Nat) (e : Nat) (fuel : Nat)
    (hreg : IsRegistry s.heap s.postponed_mutexes (pre ++ e :: post))
    (hpre : ∀ m ∈ pre, cb m = 0) (he : cb e ≠ 0) (hfuel : pre.length < fuel) :
    (∃ s1, mutex_boot cb fuel s = some (true, s1) ∧
      s1.calls = s.calls ++ (pre.map (fun m => (m, (0 : Int))) ++ [(e, cb e)]) ∧
      (∀ m ∈ post, m ∉ (pre.map (fun m => (m, (0 : Int))) ++ [(e, cb e)]).map Prod.fst) ∧
      IsRegistry s1.heap s1.postponed_mutexes (e :: post) ∧
      (∀ m ∈ e :: post, (s1.heap m).lock = (s.heap m).lock) ∧
      s1.postpone_init = false) ∧
    (∀ (cb2 : Nat → Int) (fuel2 : Nat) (s2 : State) (r : Bool) (s3 : State),
      mutex_boot cb2 fuel2 s2 = some (r, s3) →
      ∃ made, s3.calls = s2.calls ++ made ∧ (r = true ↔ ∃ c ∈ made, c.2 ≠ 0)) := by
  constructor
  · have hnd := IsChain.nodup hreg
    obtain ⟨s1, d1, d2, d3, d4, d5, d6, _⟩ :=
      boot_loop_drain cb (e :: post) pre { s with postpone_init := false }
        (fuel - pre.length) hreg hpre
    have hf : pre.length + (fuel - pre.length) = fuel := by omega
    rw [hf] at d1
    obtain ⟨k, hk⟩ : ∃ k, fuel - pre.length = k + 1 := ⟨fuel - pre.length - 1, by omega⟩
    rw [hk, boot_loop_fail cb k s1 e d3.1 he] at d1
    have hdisj : ∀ m ∈ e :: post, m ∉ pre := by
      intro m hm hp
      exact (List.nodup_append.mp hnd).2.2 hp hm
    refine ⟨init_calloc_cb s1 e (cb e), d1, ?_, ?_, ?_, ?_, d2⟩
    · simp [init_calloc_cb, d4]
    · intro m hm
      have hm1 : m ∉ pre := hdisj m (List.mem_cons_of_mem _ hm)
      have hm2 : m ≠ e := by
        intro e1
        have := (List.nodup_cons.mp (List.nodup_append.mp hnd).2.1).1
        exact this (e1 ▸ hm)
      simp [List.map_map, Function.comp_def, hm1, hm2]
    · refine IsChain.congr ?_ d3
      intro a _
      simp only [init_calloc_cb]
      split <;> rfl
    · intro m hm
      have h1 : ((init_calloc_cb s1 e (cb e)).heap m).lock = (s1.heap m).lock := by
        simp only [init_calloc_cb, native_construct]
        split
        · simp [he]
        · rfl
      rw [h1]
      exact d6 m (hdisj m hm)
  · intro cb2 fuel2 s2 r s3 h
    exact (boot_loop_result cb2 fuel2 _ r s3 h).2.2

theorem c5_boot_failure_stops_drain_witness :
    IsRegistry
      (register_all (fun _ => 0)
        (State.initial (fun _ => ⟨pthread_mutex_t.unconstructed, none⟩)) [1, 2, 3]).heap
      (register_all (fun _ => 0)
        (State.initial (fun _ => ⟨pthread_mutex_t.unconstructed, none⟩)) [1, 2, 3]).postponed_mutexes
      ([3] ++ 2 :: [1]) ∧
    ∃ s1, mutex_boot (fun m => if m = 2 then 12 else 0) 2
        (register_all (fun _ => 0)
          (State.initial (fun _ => ⟨pthread_mutex_t.unconstructed, none⟩)) [1, 2, 3])
        = some (true, s1) ∧
      s1.calls = [(3, 0), (2, 12)] ∧
      IsRegistry s1.heap s1.postponed_mutexes [2, 1] ∧
      (s1.heap 2).lock = pthread_mutex_t.unconstructed ∧
      (s1.heap 1).lock = pthread_mutex_t.unconstructed := by
  have hreg : IsRegistry
      (register_all (fun _ => 0)
        (State.initial (fun _ => ⟨pthread_mutex_t.unconstructed, none⟩)) [1, 2, 3]).heap
      (register_all (fun _ => 0)
        (State.initial (fun _ => ⟨pthread_mutex_t.unconstructed, none⟩)) [1, 2, 3]).postponed_mutexes
      ([3] ++ 2 :: [1]) := by decide
  obtain ⟨⟨s1, h1, h2, _, h4, h5, _⟩, _⟩ :=
    c5_boot_failure_stops_drain (fun m => if m = 2 then 12 else 0)
      (register_all (fun _ => 0)
        (State.initial (fun _ => ⟨pthread_mutex_t.unconstructed, none⟩)) [1, 2, 3])
      [3] [1] 2 2 hreg (by decide) (by decide) (by decide)
  refine ⟨hreg, s1, h1, ?_, h4, ?_, ?_⟩
  · rw [h2]; rfl
  · rw [h5 2 (by decide)]; rfl
  · rw [h5 1 (by decide)]; rfl

/-- C6: after a `mutex_boot` that returned success, a further `mutex_boot`
returns success whatever its fuel and whatever the constructor would answer,
and leaves the whole state as it was: the postpone flag, the registry head,
every handle, and the log of constructor calls (so it made none). -/
theorem c6_second_boot_is_noop
    (cb : Nat → Int) (fuel : Nat) (s s1 : State)
    (h : mutex_boot cb fuel s = some (false, s1)) (cb2 : Nat → Int) (fuel2 : Nat) :
    mutex_boot cb2 fuel2 s1 = some (false, s1) := by
  obtain ⟨h1, h2, _⟩ := boot_loop_result cb fuel _ false s1 h
  have hp : s1.postpone_init = false := h1
  have hs : ({ s1 with postpone_init := false } : State) = s1 := by
    cases s1
    simp_all
  unfold mutex_boot
  rw [hs]
  exact boot_loop_none cb2 fuel2 s1 (h2 rfl)

theorem c6_second_boot_is_noop_witness :
    ∃ s1, mutex_boot (fun _ => 0) 2
        (register_all (fun _ => 0)
          (State.initial (fun _ => ⟨pthread_mutex_t.unconstructed, none⟩)) [5, 6])
        = some (false, s1) ∧
      mutex_boot (fun _ => 1) 0 s1 = some (false, s1) :=
  ⟨_, rfl, c6_second_boot_is_noop (fun _ => 0) 2
    (register_all (fun _ => 0)
      (State.initial (fun _ => ⟨pthread_mutex_t.unconstructed, none⟩)) [5, 6]) _ rfl
    (fun _ => 1) 0⟩

/-- C7, as stated, fails when the handle is already registered: with the
registry listing 3, 2, 1 and the postpone flag set, `malloc_mutex_init(2)`
leaves handles 2 and 3 linked to each other, so the registry is no longer
the list 2, 3, 2, 1 of the previous entries plus the handle, nor any finite
list at all. -/
theorem c7_init_registered_handle_counterexample :
    (register_all (fun _ => 0)
      (State.initial (fun _ => ⟨pthread_mutex_t.unconstructed, none⟩)) [1, 2, 3]).postpone_init
      = true ∧
    IsRegistry
      (register_all (fun _ => 0)
        (State.initial (fun _ => ⟨pthread_mutex_t.unconstructed, none⟩)) [1, 2, 3]).heap
      (register_all (fun _ => 0)
        (State.initial (fun _ => ⟨pthread_mutex_t.unconstructed, none⟩)) [1, 2, 3]).postponed_mutexes
      [3, 2, 1] ∧
    ¬ IsRegistry
      (malloc_mutex_init (fun _ => 0)
        (register_all (fun _ => 0)
          (State.initial (fun _ => ⟨pthread_mutex_t.unconstructed, none⟩)) [1, 2, 3]) 2).2.heap
      (malloc_mutex_init (fun _ => 0)
        (register_all (fun _ => 0)
          (State.initial (fun _ => ⟨pthread_mutex_t.unconstructed, none⟩)) [1, 2, 3]) 2).2.postponed_mutexes
      [2, 3, 2, 1] ∧
    ¬ ∃ l, IsRegistry
      (malloc_mutex_init (fun _ => 0)
        (register_all (fun _ => 0)
          (State.initial (fun _ => ⟨pthread_mutex_t.unconstructed, none⟩)) [1, 2, 3]) 2).2.heap
      (malloc_mutex_init (fun _ => 0)
        (register_all (fun _ => 0)
          (State.initial (fun _ => ⟨pthread_mutex_t.unconstructed, none⟩)) [1, 2, 3]) 2).2.postponed_mutexes
      l := by
  refine ⟨rfl, by decide, by decide, ?_⟩
  rintro ⟨l, hl⟩
  exact (@IsChain.no_list_of_two_cycle
    (fun a => ((malloc_mutex_init (fun _ => 0)
        (register_all (fun _ => 0)
          (State.initial (fun _ => ⟨pthread_mutex_t.unconstructed, none⟩)) [1, 2, 3]) 2).2.heap
      a).postponed_next)
    2 3 rfl rfl l).1 hl

/-- C7, amended: while `postpone_init` is set and the registry lists `l`,
`malloc_mutex_init(h)` for a handle `h` not already in `l` returns `false`,
calls no constructor, touches no lock and leaves the registry listing `h`
followed by `l`; once `postpone_init` is clear, `malloc_mutex_init(h)` calls
the constructor on `h` exactly once, leaves the registry (its head, every
link, hence the list it represents) and every other handle as they were, and
returns `true` if and only if the constructor answered non-zero. -/
theorem c7_init_postponed_or_constructs
    (cb : Nat → Int) (s : State) (h : Nat) :
    (s.postpone_init = true →
      ∀ l, IsRegistry s.heap s.postponed_mutexes l → h ∉ l →
      (malloc_mutex_init cb s h).1 = false ∧
      (malloc_mutex_init cb s h).2.calls = s.calls ∧
      (∀ a, ((malloc_mutex_init cb s h).2.heap a).lock = (s.heap a).lock) ∧
      (malloc_mutex_init cb s h).2.postpone_init = true ∧
      IsRegistry (malloc_mutex_init cb s h).2.heap
        (malloc_mutex_init cb s h).2.postponed_mutexes (h :: l)) ∧
    (s.postpone_init = false →
      (malloc_mutex_init cb s h).2.calls = s.calls ++ [(h, cb h)] ∧
      ((malloc_mutex_init cb s h).1 = true ↔ cb h ≠ 0) ∧
      (malloc_mutex_init cb s h).2.postpone_init = false ∧
      (malloc_mutex_init cb s h).2.postponed_mutexes = s.postponed_mutexes ∧
      (∀ a, ((malloc_mutex_init cb s h).2.heap a).postponed_next = (s.heap a).postponed_next) ∧
      (∀ a, a ≠ h → (malloc_mutex_init cb s h).2.heap a = s.heap a) ∧
      ((malloc_mutex_init cb s h).2.heap h).lock = native_construct (s.heap h).lock (cb h) ∧
      ∀ l, IsRegistry s.heap s.postponed_mutexes l →
        IsRegistry (malloc_mutex_init cb s h).2.heap
          (malloc_mutex_init cb s h).2.postponed_mutexes l) := by
  constructor
  · intro hp l hreg hfresh
    rw [malloc_mutex_init_postponed cb s h hp]
    refine ⟨rfl, rfl, ?_, hp, IsRegistry.push hreg h hfresh⟩
    intro a
    simp only [set_postponed_next]
    split <;> rfl
  · intro hp
    have hnext : ∀ a, ((init_calloc_cb s h (cb h)).heap a).postponed_next
        = (s.heap a).postponed_next := by
      intro a
      simp only [init_calloc_cb]
      split <;> rfl
    have hother : ∀ a, a ≠ h → (init_calloc_cb s h (cb h)).heap a = s.heap a := by
      intro a ha
      simp [init_calloc_cb, ha]
    have hlock : ((init_calloc_cb s h (cb h)).heap h).lock
        = native_construct (s.heap h).lock (cb h) := by
      simp [init_calloc_cb]
    have hr : ∀ l, IsRegistry s.heap s.postponed_mutexes l →
        IsRegistry (init_calloc_cb s h (cb h)).heap s.postponed_mutexes l :=
      fun l hreg => IsChain.congr (fun a _ => hnext a) hreg
    by_cases hcb : cb h = 0
    · have e : malloc_mutex_init cb s h = (false, init_calloc_cb s h (cb h)) := by
        simp [malloc_mutex_init, hp, hcb]
      rw [e]
      exact ⟨rfl, by simp [hcb], hp, rfl, hnext, hother, hlock, hr⟩
    · have e : malloc_mutex_init cb s h = (true, init_calloc_cb s h (cb h)) := by
        simp [malloc_mutex_init, hp, hcb]
      rw [e]
      exact ⟨rfl, by simp [hcb], hp, rfl, hnext, hother, hlock, hr⟩

theorem c7_init_postponed_or_constructs_witness :
    IsRegistry
      (register_all (fun _ => 0)
        (State.initial (fun _ => ⟨pthread_mutex_t.unconstructed, none⟩)) [1, 2, 3]).heap
      (register_all (fun _ => 0)
        (State.initial (fun _ => ⟨pthread_mutex_t.unconstructed, none⟩)) [1, 2, 3]).postponed_mutexes
      [3, 2, 1] ∧ 4 ∉ [3, 2, 1] ∧
    IsRegistry
      (malloc_mutex_init (fun _ => 0)
        (register_all (fun _ => 0)
          (State.initial (fun _ => ⟨pthread_mutex_t.unconstructed, none⟩)) [1, 2, 3]) 4).2.heap
      (malloc_mutex_init (fun _ => 0)
        (register_all (fun _ => 0)
          (State.initial (fun _ => ⟨pthread_mutex_t.unconstructed, none⟩)) [1, 2, 3]) 4).2.postponed_mutexes
      [4, 3, 2, 1] :=
  ⟨by decide, by decide,
    ((c7_init_postponed_or_constructs (fun _ => 0)
      (register_all (fun _ => 0)
        (State.initial (fun _ => ⟨pthread_mutex_t.unconstructed, none⟩)) [1, 2, 3])
      4).1 rfl [3, 2, 1] (by decide) (by decide)).2.2.2.2⟩

end InitCb

end Jemalloc

namespace Jemalloc

namespace Fair

/-! ## The linked wait queue -/

theorem enq_item_spec (fm : fair_mutex_t) (mem : Nat → fair_mutex_queue_item_s)
    (item : Nat) (q : List Nat)
    (hq : IsQueue mem fm.wait_head q) (ht : fm.wait_tail = q.getLast?)
    (hfresh : item ∉ q) (hnext : (mem item).next = none) :
    ∃ fm1 mem1, enq_item fm mem item = some (fm1, mem1) ∧
      IsQueue mem1 fm1.wait_head (q ++ [item]) ∧
      fm1.wait_tail = (q ++ [item]).getLast? ∧
      (∀ a, (mem1 a).cond = (mem a).cond) ∧
      fm1.mutex = fm.mutex ∧ fm1.mutex_held = fm.mutex_held ∧
      fm1.num_want_mutex = fm.num_want_mutex := by
  rcases List.eq_nil_or_concat q with hnil | ⟨q0, tl, hq0⟩
  · subst hnil
    have hhead : fm.wait_head = none := hq
    have htail : fm.wait_tail = none := by simpa using ht
    refine ⟨{ fm with wait_head := some item, wait_tail := some item }, mem, ?_, ?_, ?_,
      fun _ => rfl, rfl, rfl, rfl⟩
    · simp [enq_item, hnext, htail, hhead]
    · exact ⟨rfl, hnext⟩
    · simp
  · rw [List.concat_eq_append] at hq0
    subst hq0
    have htail : fm.wait_tail = some tl := by simpa using ht
    refine ⟨{ fm with wait_tail := some item }, set_next mem tl (some item), ?_, ?_, ?_,
      ?_, rfl, rfl, rfl⟩
    · simp [enq_item, hnext, htail]
    · refine IsChain.snoc hnext ?_ hq hfresh
      intro a
      simp only [set_next]
      split <;> rfl
    · simp
    · intro a
      simp only [set_next]
      split <;> rfl

theorem deq_item_spec (fm : fair_mutex_t) (mem : Nat → fair_mutex_queue_item_s)
    (m : Nat) (rest : List Nat)
    (hq : IsQueue mem fm.wait_head (m :: rest)) (ht : fm.wait_tail = (m :: rest).getLast?) :
    ∃ fm1, deq_item fm mem = some (fm1, (mem m).cond) ∧
      IsQueue mem fm1.wait_head rest ∧
      fm1.wait_tail = rest.getLast? ∧
      fm1.mutex = fm.mutex ∧ fm1.mutex_held = fm.mutex_held ∧
      fm1.num_want_mutex = fm.num_want_mutex := by
  have hhead : fm.wait_head = some m := hq.1
  have hnd := IsChain.nodup hq
  cases rest with
  | nil =>
    have htail : fm.wait_tail = some m := by simpa using ht
    refine ⟨{ fm with wait_head := (mem m).next, wait_tail := none }, ?_, hq.2, rfl, rfl,
      rfl, rfl⟩
    simp [deq_item, hhead, htail]
  | cons x rest =>
    have htail : fm.wait_tail = (x :: rest).getLast? := by
      rw [ht, List.getLast?_cons_cons]
    obtain ⟨y, hy⟩ : ∃ y, (x :: rest).getLast? = some y :=
      ⟨(x :: rest).getLast (List.cons_ne_nil _ _), List.getLast?_eq_getLast _ _⟩
    have hym : y ≠ m := by
      intro e
      have hmem : y ∈ x :: rest := List.mem_of_getLast?_eq_some hy
      exact (List.nodup_cons.mp hnd).1 (e ▸ hmem)
    refine ⟨{ fm with wait_head := (mem m).next }, ?_, hq.2, htail, rfl, rfl, rfl⟩
    rw [hy] at htail
    simp [deq_item, hhead, htail, hym]

/-! ## The invariant and the steps -/

theorem Inv.create (fm : fair_mutex_t) (mem : Nat → fair_mutex_queue_item_s) :
    Inv (System.create fm mem) [] none none := by
  refine ⟨?_, rfl, rfl, ?_, ?_, ?_, rfl, rfl, ?_, ?_, rfl⟩
  · simp [System.create, fair_mutex_create, native_construct]
  · intro t; simp [System.create]
  · intro t; simp [System.create]
  · intro t; simp [System.create]
  · intro h; rfl
  · intro t ht; simp at ht

/-- Fast path of `fair_mutex_lock` from a state that satisfies the invariant. -/
theorem Inv.lock_fast {s : System} {q : List Nat} {w hd : Option Nat} (h : Inv s q w hd)
    (t : Nat) (hpc : s.pc t = ThreadState.idle)
    (hh : s.fm.mutex_held = 0) (hw : s.fm.num_want_mutex = 0) :
    q = [] ∧ w = none ∧ hd = none ∧
    ∃ s1, step s (Event.lock t) = Except.ok s1 ∧ Inv s1 [] none (some t) ∧
      s1.fm = { s.fm with mutex_held := 1 } ∧ s1.mem = s.mem ∧
      s1.pc = set_pc s.pc t ThreadState.holding ∧
      s1.entered = s.entered ++ [t] ∧ s1.returned = s.returned ++ [t] := by
  have hhd : hd = none := by
    have := h.held
    rw [hh] at this
    cases hd with
    | none => rfl
    | some x => simp at this
  have hlen := h.want
  rw [hw] at hlen
  have hq : q = [] := by
    cases q with
    | nil => rfl
    | cons a l => simp at hlen; omega
  have hw1 : w = none := by
    cases w with
    | none => rfl
    | some x => simp at hlen; omega
  subst hhd hq hw1
  refine ⟨rfl, rfl, rfl,
    { fm := { s.fm with mutex_held := 1 }, mem := s.mem
      pc := set_pc s.pc t ThreadState.holding
      entered := s.entered ++ [t], returned := s.returned ++ [t] },
    ?_, ?_, rfl, rfl, rfl, rfl, rfl⟩
  · simp [step, hpc, h.guard, fair_mutex_lock_enter, hh, hw]
  · refine ⟨h.guard, h.queue, h.tail, ?_, ?_, ?_, rfl, ?_, ?_, ?_, ?_⟩
    · intro u
      have := h.waiting u
      simp only [set_pc]
      split
      · simp
      · exact this
    · intro u
      have := h.signalled u
      simp only [set_pc]
      split
      · simp
      · exact this
    · intro u
      have := h.holding u
      simp only [set_pc]
      split
      · rename_i e; simp [e]
      · rename_i e
        constructor
        · intro hu; simp [hu] at this
        · intro hu; exact absurd (Option.some.inj hu).symm e
    · simpa using hw
    · intro _; rfl
    · intro u hu; simp at hu
    · have := h.hist
      simp at this
      simp [this]

/-- Slow path of `fair_mutex_lock`, up to the wait, from a state that
satisfies the invariant. -/
theorem Inv.lock_slow {s : System} {q : List Nat} {w hd : Option Nat} (h : Inv s q w hd)
    (t : Nat) (hpc : s.pc t = ThreadState.idle)
    (hslow : ¬ (s.fm.mutex_held = 0 ∧ s.fm.num_want_mutex = 0)) :
    ∃ s1, step s (Event.lock t) = Except.ok s1 ∧ Inv s1 (q ++ [t]) w hd ∧
      s1.fm.mutex_held = s.fm.mutex_held ∧
      s1.fm.num_want_mutex = s.fm.num_want_mutex + 1 ∧
      s1.pc = set_pc s.pc t ThreadState.waiting ∧
      s1.entered = s.entered ++ [t] ∧ s1.returned = s.returned := by
  have htq : t ∉ q := by
    intro hin
    have := (h.waiting t).mpr hin
    rw [hpc] at this
    cases this
  have hq1 : IsQueue (fun a => if a = t then { cond := t, next := none } else s.mem a)
      s.fm.wait_head q := by
    refine IsChain.congr ?_ h.queue
    intro a ha
    have : a ≠ t := fun e => htq (e ▸ ha)
    simp [this]
  obtain ⟨fm1, mem1, e1, e2, e3, e4, e5, e6, e7⟩ :=
    enq_item_spec s.fm (fun a => if a = t then { cond := t, next := none } else s.mem a)
      t q hq1 h.tail htq (by simp)
  refine ⟨{ fm := { fm1 with num_want_mutex := fm1.num_want_mutex + 1 }, mem := mem1
            pc := set_pc s.pc t ThreadState.waiting
            entered := s.entered ++ [t], returned := s.returned },
    ?_, ?_, ?_, ?_, rfl, rfl, rfl⟩
  · simp [step, hpc, h.guard, fair_mutex_lock_enter, hslow, e1]
  · refine ⟨?_, e2, e3, ?_, ?_, ?_, ?_, ?_, h.excl, ?_, ?_⟩
    · exact e5.trans h.guard
    · intro u
      have := h.waiting u
      simp only [set_pc]
      split
      · rename_i e; simp [e]
      · rename_i e; simp [this, e]
    · intro u
      have := h.signalled u
      simp only [set_pc]
      split
      · rename_i e
        subst e
        rw [hpc] at this
        simp at this
        simp [this]
      · exact this
    · intro u
      have := h.holding u
      simp only [set_pc]
      split
      · rename_i e
        subst e
        rw [hpc] at this
        simp at this
        simp [this]
      · exact this
    · show fm1.mutex_held = _
      rw [e6]; exact h.held
    · show fm1.num_want_mutex + 1 = _
      rw [e7, h.want]
      simp
      omega
    · intro u hu
      rw [e4 u]
      rcases List.mem_append.mp hu with hu1 | hu1
      · have : u ≠ t := fun e => htq (e ▸ hu1)
        simp [this, h.cond u hu1]
      · have : u = t := by simpa using hu1
        simp [this]
    · show s.entered ++ [t] = s.returned ++ w.toList ++ (q ++ [t])
      rw [h.hist]
      simp
  · exact e6
  · show fm1.num_want_mutex + 1 = _
    rw [e7]

/-- Second half of the slow path of `fair_mutex_lock`, run by the signalled
waiter, from a state that satisfies the invariant. -/
theorem Inv.resume {s : System} {q : List Nat} {w hd : Option Nat} (h : Inv s q w hd)
    (t : Nat) (hpc : s.pc t = ThreadState.signalled) :
    w = some t ∧ hd = none ∧ s.fm.mutex_held = 0 ∧ s.fm.num_want_mutex > 0 ∧
    ∃ s1, step s (Event.resume t) = Except.ok s1 ∧ Inv s1 q none (some t) ∧
      s1.fm = { s.fm with num_want_mutex := s.fm.num_want_mutex - 1, mutex_held := 1 } ∧
      s1.mem = s.mem ∧ s1.pc = set_pc s.pc t ThreadState.holding ∧
      s1.entered = s.entered ∧ s1.returned = s.returned ++ [t] := by
  have hw : w = some t := (h.signalled t).mp hpc
  have hhd : hd = none := by
    cases hd with
    | none => rfl
    | some x =>
      have := h.excl rfl
      rw [hw] at this
      cases this
  subst hw hhd
  have hheld : s.fm.mutex_held = 0 := h.held
  have hwant : s.fm.num_want_mutex = (q.length : Int) + 1 := by
    have := h.want
    simpa using this
  have hpos : s.fm.num_want_mutex > 0 := by omega
  have htq : t ∉ q := by
    intro hin
    have := (h.waiting t).mpr hin
    rw [hpc] at this
    cases this
  refine ⟨rfl, rfl, hheld, hpos,
    { s with fm := { s.fm with num_want_mutex := s.fm.num_want_mutex - 1, mutex_held := 1 }
             pc := set_pc s.pc t ThreadState.holding
             returned := s.returned ++ [t] },
    ?_, ?_, rfl, rfl, rfl, rfl, rfl⟩
  · simp [step, hpc, h.guard, fair_mutex_lock_resume, hheld, hpos]
  · refine ⟨h.guard, h.queue, h.tail, ?_, ?_, ?_, rfl, ?_, ?_, h.cond, ?_⟩
    · intro u
      have := h.waiting u
      simp only [set_pc]
      split
      · rename_i e; subst e; simp [htq]
      · exact this
    · intro u
      have := h.signalled u
      simp only [set_pc]
      split
      · simp
      · rename_i e
        constructor
        · intro hu
          have := this.mp hu
          exact absurd (Option.some.inj this).symm e
        · intro hu; cases hu
    · intro u
      have := h.holding u
      simp only [set_pc]
      split
      · rename_i e; simp [e]
      · rename_i e
        constructor
        · intro hu; simp [hu] at this
        · intro hu; exact absurd (Option.some.inj hu).symm e
    · show s.fm.num_want_mutex - 1 = _
      rw [hwant]; simp
    · intro _; rfl
    · show s.entered = s.returned ++ [t] ++ (none : Option Nat).toList ++ q
      rw [h.hist]; simp

/-- The call of `fair_mutex_unlock` by the holder, from a state that
satisfies the invariant. -/
theorem Inv.unlock {s : System} {q : List Nat} {w hd : Option Nat} (h : Inv s q w hd)
    (t : Nat) (hpc : s.pc t = ThreadState.holding) :
    w = none ∧ hd = some t ∧
    ∃ s1, step s (Event.unlock t) = Except.ok s1 ∧ Inv s1 q.tail q.head? none ∧
      fair_mutex_unlock s.fm s.mem = some (s1.fm, q.head?) ∧
      s1.fm.mutex_held = 0 ∧ s1.fm.num_want_mutex = s.fm.num_want_mutex ∧
      s1.mem = s.mem ∧ s1.entered = s.entered ∧ s1.returned = s.returned := by
  have hhd : hd = some t := (h.holding t).mp hpc
  have hw : w = none := h.excl (by rw [hhd]; rfl)
  subst hhd hw
  have hwant : s.fm.num_want_mutex = (q.length : Int) := by
    have := h.want
    simpa using this
  have htq : t ∉ q := by
    intro hin
    have := (h.waiting t).mpr hin
    rw [hpc] at this
    cases this
  refine ⟨rfl, rfl, ?_⟩
  cases q with
  | nil =>
    have hhead : s.fm.wait_head = none := h.queue
    have hzero : s.fm.num_want_mutex = 0 := by simpa using hwant
    refine ⟨{ s with fm := { s.fm with mutex_held := 0 }
                     pc := set_pc s.pc t ThreadState.idle },
      ?_, ?_, ?_, rfl, rfl, rfl, rfl, rfl⟩
    · simp [step, hpc, h.guard, fair_mutex_unlock, hhead, hzero]
    · refine ⟨h.guard, h.queue, h.tail, ?_, ?_, ?_, rfl, ?_, ?_, ?_, ?_⟩
      · intro u
        have := h.waiting u
        simp only [set_pc]
        split
        · simp
        · exact this
      · intro u
        have := h.signalled u
        simp only [set_pc]
        split
        · simp
        · exact this
      · intro u
        have := h.holding u
        simp only [set_pc]
        split
        · simp
        · rename_i e
          constructor
          · intro hu
            have := this.mp hu
            exact absurd (Option.some.inj this).symm e
          · intro hu; cases hu
      · simpa using hzero
      · intro _; rfl
      · intro u hu; simp at hu
      · have := h.hist
        simpa using this
    · simp [fair_mutex_unlock, hhead, hzero]
  | cons m rest =>
    have hhead : s.fm.wait_head = some m := h.queue.1
    have hpos : s.fm.num_want_mutex > 0 := by
      rw [hwant]; simp
    have hnd := IsChain.nodup h.queue
    have hmrest : m ∉ rest := (List.nodup_cons.mp hnd).1
    have hmt : m ≠ t := fun e => htq (e ▸ List.mem_cons_self _ _)
    have hmw : s.pc m = ThreadState.waiting := (h.waiting m).mpr (List.mem_cons_self _ _)
    have hcond : (s.mem m).cond = m := h.cond m (List.mem_cons_self _ _)
    obtain ⟨fm1, d1, d2, d3, d4, d5, d6⟩ :=
      deq_item_spec
        { mutex := s.fm.mutex, mutex_held := 0, num_want_mutex := s.fm.num_want_mutex
          wait_head := s.fm.wait_head, wait_tail := s.fm.wait_tail }
        s.mem m rest h.queue h.tail
    rw [hcond] at d1
    have hun : fair_mutex_unlock s.fm s.mem = some (fm1, some m) := by
      simp only [fair_mutex_unlock]
      rw [d1]
      simp [hhead, hpos]
    refine ⟨{ s with fm := fm1
                     pc := pthread_cond_signal (set_pc s.pc t ThreadState.idle) m },
      ?_, ?_, hun, d5, d6, rfl, rfl, rfl⟩
    · simp [step, hpc, h.guard, hun]
    · refine ⟨d4.trans h.guard, d2, d3, ?_, ?_, ?_, d5, ?_, ?_, ?_, ?_⟩
      · intro u
        have := h.waiting u
        simp only [pthread_cond_signal, set_pc, List.tail_cons]
        by_cases hum : u = m
        · subst hum
          simp [hmt, hmw, hmrest]
        · by_cases hut : u = t
          · subst hut
            have : u ∉ rest := fun hin => htq (List.mem_cons_of_mem _ hin)
            simp [hum, this]
          · simp [hum, hut, this]
      · intro u
        have := h.signalled u
        simp only [pthread_cond_signal, set_pc, List.head?_cons]
        by_cases hum : u = m
        · subst hum
          simp [hmt, hmw]
        · by_cases hut : u = t
          · subst hut
            simp [hum]
            exact fun e => hum e.symm
          · simp [hum, hut, this]
            exact fun e => hum e.symm
      · intro u
        have := h.holding u
        simp only [pthread_cond_signal, set_pc]
        by_cases hum : u = m
        · subst hum
          simp [hmt, hmw]
        · by_cases hut : u = t
          · subst hut
            simp [hum]
          · simp [hum, hut, this]
            exact fun e => hut e.symm
      · show fm1.num_want_mutex = _
        rw [d6]
        show s.fm.num_want_mutex = _
        rw [hwant]
        simp
      · intro hx; cases hx
      · intro u hu
        exact h.cond u (List.mem_cons_of_mem _ hu)
      · show s.entered = s.returned ++ (some m).toList ++ rest
        rw [h.hist]
        simp

/-- Every step that produces a state keeps the invariant and only appends
to the two history lists. -/
theorem Inv.step_ok {s s1 : System} {q : List Nat} {w hd : Option Nat} (h : Inv s q w hd)
    {e : Event} (hs : step s e = Except.ok s1) :
    ∃ q1 w1 hd1, Inv s1 q1 w1 hd1 ∧
      (∃ l, s1.entered = s.entered ++ l) ∧ (∃ r, s1.returned = s.returned ++ r) := by
  cases e with
  | lock t =>
    by_cases hpc : s.pc t = ThreadState.idle
    · by_cases hfast : s.fm.mutex_held = 0 ∧ s.fm.num_want_mutex = 0
      · obtain ⟨_, _, _, s2, h1, h2, _, _, _, h6, h7⟩ := h.lock_fast t hpc hfast.1 hfast.2
        rw [h1] at hs
        cases hs
        exact ⟨_, _, _, h2, ⟨_, h6⟩, ⟨_, h7⟩⟩
      · obtain ⟨s2, h1, h2, _, _, _, h6, h7⟩ := h.lock_slow t hpc hfast
        rw [h1] at hs
        cases hs
        exact ⟨_, _, _, h2, ⟨_, h6⟩, ⟨[], by simp [h7]⟩⟩
    · simp [step, hpc] at hs
  | resume t =>
    by_cases hpc : s.pc t = ThreadState.signalled
    · obtain ⟨_, _, _, _, s2, h1, h2, _, _, _, h6, h7⟩ := h.resume t hpc
      rw [h1] at hs
      cases hs
      exact ⟨_, _, _, h2, ⟨[], by simp [h6]⟩, ⟨_, h7⟩⟩
    · simp [step, hpc] at hs
  | unlock t =>
    by_cases hpc : s.pc t = ThreadState.holding
    · obtain ⟨_, _, s2, h1, h2, _, _, _, _, h6, h7⟩ := h.unlock t hpc
      rw [h1] at hs
      cases hs
      exact ⟨_, _, _, h2, ⟨[], by simp [h6]⟩, ⟨[], by simp [h7]⟩⟩
    · simp [step, hpc] at hs

theorem run_cons_ok {s s2 : System} {e : Event} {es : List Event}
    (h : run s (e :: es) = Except.ok s2) :
    ∃ s1, step s e = Except.ok s1 ∧ run s1 es = Except.ok s2 := by
  rw [run] at h
  cases hstep : step s e with
  | ok s1 => rw [hstep] at h; exact ⟨s1, rfl, h⟩
  | error f => rw [hstep] at h; cases h

/-- Every schedule that runs keeps the invariant and only appends to the two
history lists. -/
theorem Inv.run_ok {es : List Event} :
    ∀ {s s1 : System} {q : List Nat} {w hd : Option Nat}, Inv s q w hd →
      run s es = Except.ok s1 →
      ∃ q1 w1 hd1, Inv s1 q1 w1 hd1 ∧
        (∃ l, s1.entered = s.entered ++ l) ∧ (∃ r, s1.returned = s.returned ++ r) := by
  induction es with
  | nil =>
    intro s s1 q w hd h hr
    rw [run] at hr
    cases hr
    exact ⟨q, w, hd, h, ⟨[], by simp⟩, ⟨[], by simp⟩⟩
  | cons e es ih =>
    intro s s1 q w hd h hr
    obtain ⟨s2, h1, h2⟩ := run_cons_ok hr
    obtain ⟨q2, w2, hd2, i1, ⟨l1, i2⟩, ⟨r1, i3⟩⟩ := h.step_ok h1
    obtain ⟨q3, w3, hd3, j1, ⟨l2, j2⟩, ⟨r2, j3⟩⟩ := ih i1 h2
    exact ⟨q3, w3, hd3, j1, ⟨l1 ++ l2, by rw [j2, i2, List.append_assoc]⟩,
      ⟨r1 ++ r2, by rw [j3, i3, List.append_assoc]⟩⟩

/-- Every state reached from `fair_mutex_create` satisfies the invariant. -/
theorem reachable_inv {fm : fair_mutex_t} {mem : Nat → fair_mutex_queue_item_s}
    {es : List Event} {s : System} (h : run (System.create fm mem) es = Except.ok s) :
    ∃ q w hd, Inv s q w hd := by
  obtain ⟨q, w, hd, h1, _, _⟩ := (Inv.create fm mem).run_ok h
  exact ⟨q, w, hd, h1⟩

/-- While the mutex is held, callers entering `fair_mutex_lock` one after the
other all take the slow path and queue up in their order of arrival. -/
theorem Inv.run_locks_held {ts : List Nat} :
    ∀ {s s1 : System} {q : List Nat} {w hd : Option Nat}, Inv s q w hd →
      s.fm.mutex_held ≠ 0 → run s (ts.map Event.lock) = Except.ok s1 →
      Inv s1 (q ++ ts) w hd ∧ s1.entered = s.entered ++ ts ∧ s1.returned = s.returned := by
  induction ts with
  | nil =>
    intro s s1 q w hd h _ hr
    rw [List.map_nil, run] at hr
    cases hr
    exact ⟨by simpa using h, by simp, rfl⟩
  | cons t ts ih =>
    intro s s1 q w hd h hheld hr
    rw [List.map_cons] at hr
    obtain ⟨s2, h1, h2⟩ := run_cons_ok hr
    have hpc : s.pc t = ThreadState.idle := by
      by_contra hne
      simp [step, hne] at h1
    obtain ⟨s3, k1, k2, k3, _, _, k6, k7⟩ := h.lock_slow t hpc (fun hf => hheld hf.1)
    rw [k1] at h1
    cases h1
    obtain ⟨m1, m2, m3⟩ := ih k2 (by rw [k3]; exact hheld) h2
    refine ⟨by simpa using m1, ?_, ?_⟩
    · rw [m2, k6]; simp
    · rw [m3, k7]

/-! ## Claims on the fair mutex -/

/-- C1, mutual exclusion: in every state reached from `fair_mutex_create` by a
schedule of lock, resume and unlock steps, at most one thread is between its
return from `fair_mutex_lock` and its call of `fair_mutex_unlock`, and
`mutex_held` is set exactly when there is such a thread. -/
theorem c1_mutual_exclusion
    (fm : fair_mutex_t) (mem : Nat → fair_mutex_queue_item_s) (es : List Event) (s : System)
    (h : run (System.create fm mem) es = Except.ok s) :
    (∀ t1 t2, s.pc t1 = ThreadState.holding → s.pc t2 = ThreadState.holding → t1 = t2) ∧
    (s.fm.mutex_held ≠ 0 ↔ ∃ t, s.pc t = ThreadState.holding) := by
  obtain ⟨q, w, hd, hi⟩ := reachable_inv h
  constructor
  · intro t1 t2 h1 h2
    have e1 := (hi.holding t1).mp h1
    have e2 := (hi.holding t2).mp h2
    rw [e1] at e2
    exact Option.some.inj e2
  · rw [hi.held]
    cases hd with
    | none =>
      simp
      intro t ht
      have := (hi.holding t).mp ht
      cases this
    | some x =>
      simp
      exact ⟨x, (hi.holding x).mpr rfl⟩

theorem c1_mutual_exclusion_witness :
    ∃ s, run (System.create ⟨pthread_mutex_t.unconstructed, 3, 4, some 5, none⟩
        (fun _ => ⟨0, some 0⟩))
        [Event.lock 0, Event.lock 1, Event.unlock 0, Event.lock 2, Event.resume 1]
        = Except.ok s ∧
      (∀ t1 t2, s.pc t1 = ThreadState.holding → s.pc t2 = ThreadState.holding → t1 = t2) ∧
      (s.fm.mutex_held ≠ 0 ↔ ∃ t, s.pc t = ThreadState.holding) :=
  ⟨_, rfl, c1_mutual_exclusion ⟨pthread_mutex_t.unconstructed, 3, 4, some 5, none⟩
    (fun _ => ⟨0, some 0⟩)
    [Event.lock 0, Event.lock 1, Event.unlock 0, Event.lock 2, Event.resume 1] _ rfl⟩

/-- C2, FIFO grant order.  Let `s0` be any state reached from
`fair_mutex_create`.  (a) The callers that have returned from
`fair_mutex_lock`, in the order of their returns, are an initial segment of the
callers that have entered it, in the order of their entries.  (b) While some
waiter is queued or signalled but not yet resumed, a caller entering
`fair_mutex_lock` blocks and returns nothing.  (c) If the mutex is held in
`s0` and the callers `ts` enter `fair_mutex_lock` one after the other, they all
block; and after any further schedule, the callers that returned since `s0`
are an initial segment of: the waiters pending in `s0`, then `ts` in their
order of entry, then the later entrants. -/
theorem c2_fifo_grant_order
    (fm : fair_mutex_t) (mem : Nat → fair_mutex_queue_item_s) (es0 : List Event) (s0 : System)
    (h0 : run (System.create fm mem) es0 = Except.ok s0) :
    s0.returned <+: s0.entered ∧
    (∀ u t s1, (s0.pc u = ThreadState.waiting ∨ s0.pc u = ThreadState.signalled) →
      step s0 (Event.lock t) = Except.ok s1 →
      s1.pc t = ThreadState.waiting ∧ s1.returned = s0.returned) ∧
    (∀ (ts : List Nat) (s1 : System) (es2 : List Event) (s2 : System),
      s0.fm.mutex_held ≠ 0 →
      run s0 (ts.map Event.lock) = Except.ok s1 → run s1 es2 = Except.ok s2 →
      ∃ pending later granted,
        s0.entered = s0.returned ++ pending ∧
        s1.entered = s0.entered ++ ts ∧ s1.returned = s0.returned ∧
        (∀ t ∈ ts, s1.pc t = ThreadState.waiting) ∧
        s2.entered = s0.entered ++ ts ++ later ∧
        s2.returned = s0.returned ++ granted ∧
        granted <+: pending ++ ts ++ later) := by
  obtain ⟨q, w, hd, hi⟩ := reachable_inv h0
  refine ⟨?_, ?_, ?_⟩
  · rw [hi.hist, List.append_assoc]
    exact List.prefix_append _ _
  · intro u t s1 hu hs
    have hpc : s0.pc t = ThreadState.idle := by
      by_contra hne
      simp [step, hne] at hs
    have hslow : ¬ (s0.fm.mutex_held = 0 ∧ s0.fm.num_want_mutex = 0) := by
      rintro ⟨_, hz⟩
      rw [hi.want] at hz
      rcases hu with hu | hu
      · have hm := (hi.waiting u).mp hu
        cases q with
        | nil => simp at hm
        | cons a l => simp at hz; omega
      · have hm := (hi.signalled u).mp hu
        subst hm
        simp at hz
        omega
    obtain ⟨s2, k1, _, _, _, k5, _, k7⟩ := hi.lock_slow t hpc hslow
    rw [k1] at hs
    cases hs
    exact ⟨by rw [k5]; simp [set_pc], k7⟩
  · intro ts s1 es2 s2 hheld h1 h2
    obtain ⟨i1, i2, i3⟩ := hi.run_locks_held hheld h1
    obtain ⟨q2, w2, hd2, j1, ⟨later, j2⟩, ⟨granted, j3⟩⟩ := i1.run_ok h2
    refine ⟨w.toList ++ q, later, granted, ?_, i2, i3, ?_, ?_, ?_, ?_⟩
    · rw [hi.hist, List.append_assoc]
    · intro t ht
      exact (i1.waiting t).mpr (List.mem_append_right _ ht)
    · rw [j2, i2]
    · rw [j3, i3]
    · have e := j1.hist
      rw [j2, j3, i2, i3, hi.hist] at e
      have e2 : s0.returned ++ (w.toList ++ q ++ ts ++ later)
          = s0.returned ++ (granted ++ (w2.toList ++ q2)) := by
        simpa [List.append_assoc] using e
      have e3 := List.append_cancel_left e2
      rw [e3]
      exact List.prefix_append _ _

theorem c2_fifo_grant_order_witness :
    ∃ s0, run (System.create ⟨pthread_mutex_t.locked, 0, 0, none, none⟩
        (fun _ => ⟨0, none⟩))
        [Event.lock 0, Event.lock 1, Event.lock 2, Event.unlock 0, Event.lock 3]
        = Except.ok s0 ∧ s0.returned = [0] ∧ s0.entered = [0, 1, 2, 3] ∧
      s0.returned <+: s0.entered :=
  ⟨_, rfl, rfl, rfl,
    (c2_fifo_grant_order ⟨pthread_mutex_t.locked, 0, 0, none, none⟩ (fun _ => ⟨0, none⟩)
      [Event.lock 0, Event.lock 1, Event.lock 2, Event.unlock 0, Event.lock 3] _ rfl).1⟩

/-- C9, counter consistency: in every state reached from `fair_mutex_create`,
`fair_mutex_users` is one if the mutex is held and zero otherwise, plus
`fair_mutex_blocked_users`; the mutex is held exactly when some thread is
between lock and unlock; and `fair_mutex_blocked_users` is the length of the
wait queue, whose items are exactly the waiters not yet signalled, each once,
plus one if there is a waiter that was dequeued and signalled and has not
resumed, of which there is at most one. -/
theorem c9_counter_consistency
    (fm : fair_mutex_t) (mem : Nat → fair_mutex_queue_item_s) (es : List Event) (s : System)
    (h : run (System.create fm mem) es = Except.ok s) :
    fair_mutex_users s.fm =
      (if s.fm.mutex_held ≠ 0 then 1 else 0) + fair_mutex_blocked_users s.fm ∧
    (s.fm.mutex_held ≠ 0 ↔ ∃ t, s.pc t = ThreadState.holding) ∧
    ∃ (q : List Nat) (w : Option Nat),
      IsQueue s.mem s.fm.wait_head q ∧ q.Nodup ∧
      (∀ t, s.pc t = ThreadState.waiting ↔ t ∈ q) ∧
      (∀ t, s.pc t = ThreadState.signalled ↔ w = some t) ∧
      fair_mutex_blocked_users s.fm = (q.length : Int) + (w.toList.length : Int) ∧
      w.toList.length ≤ 1 := by
  obtain ⟨q, w, hd, hi⟩ := reachable_inv h
  refine ⟨?_, ?_, q, w, hi.queue, IsChain.nodup hi.queue, hi.waiting, hi.signalled, hi.want, ?_⟩
  · simp only [fair_mutex_users, fair_mutex_blocked_users]
    rw [hi.held]
    cases hd <;> simp
  · rw [hi.held]
    cases hd with
    | none =>
      simp
      intro t ht
      have := (hi.holding t).mp ht
      cases this
    | some x =>
      simp
      exact ⟨x, (hi.holding x).mpr rfl⟩
  · cases w <;> simp

theorem c9_counter_consistency_witness :
    ∃ s, run (System.create ⟨pthread_mutex_t.locked, 0, 0, none, none⟩
        (fun _ => ⟨0, none⟩))
        [Event.lock 0, Event.lock 1, Event.lock 2, Event.unlock 0, Event.lock 3]
        = Except.ok s ∧
      fair_mutex_users s.fm = 3 ∧ fair_mutex_blocked_users s.fm = 3 ∧
      s.fm.mutex_held = 0 ∧ IsQueue s.mem s.fm.wait_head [2, 3] ∧
      s.pc 1 = ThreadState.signalled ∧
      fair_mutex_users s.fm =
        (if s.fm.mutex_held ≠ 0 then 1 else 0) + fair_mutex_blocked_users s.fm :=
  ⟨_, rfl, by decide, by decide, rfl, by decide, rfl,
    (c9_counter_consistency ⟨pthread_mutex_t.locked, 0, 0, none, none⟩ (fun _ => ⟨0, none⟩)
      [Event.lock 0, Event.lock 1, Event.lock 2, Event.unlock 0, Event.lock 3] _ rfl).1⟩

/-- C8, hand-off scenario, for any three distinct threads `a`, `b`, `c` and a
freshly created mutex: the lock of `a` returns at once and creates no queue
item; `b` then `c` lock while `a` holds, both block, with two blocked users
and three users, queued in that order; the unlock of `a` signals the condition
variable of `b` only, `b` is signalled and `c` still waits; `b` resumes and
holds while `c` is still queued; the unlock of `b` signals `c`; after `c`
resumed and unlocked there are no users, the queue is empty, every thread is
outside the mutex, and the callers returned from lock in the order `a`, `b`,
`c`. -/
theorem c8_handoff_scenario
    (fm : fair_mutex_t) (mem : Nat → fair_mutex_queue_item_s) (a b c : Nat)
    (hab : a ≠ b) (hac : a ≠ c) (hbc : b ≠ c) :
    ∃ s1 s3 s4 s5 s6 s8 : System,
      step (System.create fm mem) (Event.lock a) = Except.ok s1 ∧
      s1.pc a = ThreadState.holding ∧ s1.mem = mem ∧ s1.fm.wait_head = none ∧
      run s1 [Event.lock b, Event.lock c] = Except.ok s3 ∧
      s3.pc a = ThreadState.holding ∧
      s3.pc b = ThreadState.waiting ∧ s3.pc c = ThreadState.waiting ∧
      fair_mutex_blocked_users s3.fm = 2 ∧ fair_mutex_users s3.fm = 3 ∧
      IsQueue s3.mem s3.fm.wait_head [b, c] ∧
      step s3 (Event.unlock a) = Except.ok s4 ∧
      fair_mutex_unlock s3.fm s3.mem = some (s4.fm, some b) ∧
      s4.pc a = ThreadState.idle ∧
      s4.pc b = ThreadState.signalled ∧ s4.pc c = ThreadState.waiting ∧
      step s4 (Event.resume b) = Except.ok s5 ∧
      s5.pc b = ThreadState.holding ∧ s5.pc c = ThreadState.waiting ∧
      IsQueue s5.mem s5.fm.wait_head [c] ∧
      step s5 (Event.unlock b) = Except.ok s6 ∧
      fair_mutex_unlock s5.fm s5.mem = some (s6.fm, some c) ∧
      s6.pc c = ThreadState.signalled ∧
      run s6 [Event.resume c, Event.unlock c] = Except.ok s8 ∧
      fair_mutex_users s8.fm = 0 ∧ fair_mutex_blocked_users s8.fm = 0 ∧
      s8.fm.wait_head = none ∧ s8.fm.wait_tail = none ∧
      (∀ t, s8.pc t = ThreadState.idle) ∧
      s8.entered = [a, b, c] ∧ s8.returned = [a, b, c] := by
  have i0 := Inv.create fm mem
  obtain ⟨_, _, _, s1, e1, i1, f1, m1, p1, en1, r1⟩ := i0.lock_fast a rfl rfl rfl
  have pb : s1.pc b = ThreadState.idle := by
    rw [p1]; simp [set_pc, hab.symm, System.create]
  obtain ⟨s2, e2, i2, h2, w2, p2, en2, r2⟩ :=
    i1.lock_slow b pb (by rw [f1]; simp)
  have pc2 : s2.pc c = ThreadState.idle := by
    rw [p2, p1]; simp [set_pc, hac.symm, hbc.symm, System.create]
  obtain ⟨s3, e3, i3, h3, w3, p3, en3, r3⟩ :=
    i2.lock_slow c pc2 (by rw [h2, f1]; simp)
  have i3a : Inv s3 [b, c] none (some a) := by simpa using i3
  obtain ⟨_, _, s4, e4, i4, u4, _, _, _, en4, r4⟩ := i3a.unlock a ((i3a.holding a).mpr rfl)
  have i4a : Inv s4 [c] (some b) none := by simpa using i4
  obtain ⟨_, _, _, _, s5, e5, i5, _, _, _, en5, r5⟩ :=
    i4a.resume b ((i4a.signalled b).mpr rfl)
  obtain ⟨_, _, s6, e6, i6, u6, _, _, _, en6, r6⟩ := i5.unlock b ((i5.holding b).mpr rfl)
  have i6a : Inv s6 [] (some c) none := by simpa using i6
  obtain ⟨_, _, _, _, s7, e7, i7, _, _, _, en7, r7⟩ :=
    i6a.resume c ((i6a.signalled c).mpr rfl)
  obtain ⟨_, _, s8, e8, i8, _, _, _, _, en8, r8⟩ := i7.unlock c ((i7.holding c).mpr rfl)
  have i8a : Inv s8 [] none none := by simpa using i8
  have held3 : s3.fm.mutex_held = 1 := i3a.held
  have want3 : s3.fm.num_want_mutex = 2 := by
    have := i3a.want
    simpa using this
  have held8 : s8.fm.mutex_held = 0 := i8a.held
  have want8 : s8.fm.num_want_mutex = 0 := by
    have := i8a.want
    simpa using this
  refine ⟨s1, s3, s4, s5, s6, s8, e1, (i1.holding a).mpr rfl, m1, i1.queue, ?_,
    (i3a.holding a).mpr rfl, (i3a.waiting b).mpr (by simp), (i3a.waiting c).mpr (by simp),
    want3, ?_, i3a.queue, e4, ?_, ?_, (i4a.signalled b).mpr rfl,
    (i4a.waiting c).mpr (by simp), e5, (i5.holding b).mpr rfl, (i5.waiting c).mpr (by simp),
    i5.queue, e6, ?_, (i6a.signalled c).mpr rfl, ?_, ?_, want8, i8a.queue, ?_, ?_, ?_, ?_⟩
  · simp [run, e2, e3]
  · simp [fair_mutex_users, held3, want3]
  · simpa using u4
  · have h1 : s4.pc a ≠ ThreadState.waiting := by
      intro h; have := (i4a.waiting a).mp h; simp at this; exact hac this
    have h2 : s4.pc a ≠ ThreadState.signalled := by
      intro h; have := (i4a.signalled a).mp h; simp at this; exact hab this.symm
    have h3 : s4.pc a ≠ ThreadState.holding := by
      intro h; have := (i4a.holding a).mp h; cases this
    cases hp : s4.pc a with
    | idle => rfl
    | waiting => exact absurd hp h1
    | signalled => exact absurd hp h2
    | holding => exact absurd hp h3
  · simpa using u6
  · simp [run, e7, e8]
  · simp [fair_mutex_users, held8, want8]
  · have := i8a.tail
    simpa using this
  · intro t
    have h1 : s8.pc t ≠ ThreadState.waiting := by
      intro h; have := (i8a.waiting t).mp h; simp at this
    have h2 : s8.pc t ≠ ThreadState.signalled := by
      intro h; have := (i8a.signalled t).mp h; cases this
    have h3 : s8.pc t ≠ ThreadState.holding := by
      intro h; have := (i8a.holding t).mp h; cases this
    cases hp : s8.pc t with
    | idle => rfl
    | waiting => exact absurd hp h1
    | signalled => exact absurd hp h2
    | holding => exact absurd hp h3
  · rw [en8, en7, en6, en5, en4, en3, en2, en1]
    simp [System.create]
  · rw [r8, r7, r6, r5, r4, r3, r2, r1]
    simp [System.create]

theorem c8_handoff_scenario_witness :
    ∃ s8, run (System.create ⟨pthread_mutex_t.unconstructed, 0, 0, none, none⟩
        (fun _ => ⟨0, none⟩))
        [Event.lock 10, Event.lock 20, Event.lock 30, Event.unlock 10, Event.resume 20,
         Event.unlock 20, Event.resume 30, Event.unlock 30] = Except.ok s8 ∧
      fair_mutex_users s8.fm = 0 ∧ s8.returned = [10, 20, 30] := by
  obtain ⟨s1, s3, s4, s5, s6, s8, h1, _, _, _, h3, _, _, _, _, _, _, h4, _, _, _, _, h5, _, _,
      _, h6, _, _, h8, hu, _, _, _, _, _, hr⟩ :=
    c8_handoff_scenario ⟨pthread_mutex_t.unconstructed, 0, 0, none, none⟩
      (fun _ => ⟨0, none⟩) 10 20 30 (by decide) (by decide) (by decide)
  refine ⟨s8, ?_, hu, hr⟩
  obtain ⟨s2, a1, a2⟩ := run_cons_ok h3
  obtain ⟨s3b, a3, a4⟩ := run_cons_ok a2
  rw [run] at a4
  cases a4
  obtain ⟨s7, b1, b2⟩ := run_cons_ok h8
  obtain ⟨s8b, b3, b4⟩ := run_cons_ok b2
  rw [run] at b4
  cases b4
  simp only [run, h1, a1, a3, h4, h5, h6, b1, b3]

/-! ## Claims on the fork hooks -/

/-- What `malloc_mutex_postfork_child` computes: the handle rebuilt by
`fair_mutex_create`, for every return code `rc` of the guard constructor; and,
for return code zero, a result that does not depend on the prior handle and
on which a lock takes the fast path. -/
theorem postfork_child_spec
    (mutex : malloc_mutex_s) (rc : Int) (opt_abort : Bool) :
    ∃ m1, malloc_mutex_postfork_child mutex rc opt_abort = some m1 ∧
      m1.lock = fair_mutex_create mutex.lock rc ∧
      m1.lock.mutex_held = 0 ∧ m1.lock.num_want_mutex = 0 ∧
      m1.lock.wait_head = none ∧ m1.lock.wait_tail = none ∧
      fair_mutex_users m1.lock = 0 ∧ fair_mutex_blocked_users m1.lock = 0 ∧
      (∀ mem, IsQueue mem m1.lock.wait_head []) ∧
      (rc = 0 →
        (∀ other : malloc_mutex_s,
          malloc_mutex_postfork_child other rc opt_abort = some m1) ∧
        (∀ mem pc, (System.create mutex.lock mem).fm = m1.lock ∧
          ∀ entered returned t, pc t = ThreadState.idle →
          step { fm := m1.lock, mem := mem, pc := pc, entered := entered,
                 returned := returned } (Event.lock t) =
            Except.ok { fm := { m1.lock with mutex_held := 1 }, mem := mem
                        pc := set_pc pc t ThreadState.holding
                        entered := entered ++ [t], returned := returned ++ [t] })) := by
  refine ⟨{ lock := fair_mutex_create mutex.lock rc }, rfl, rfl, rfl, rfl, rfl, rfl, rfl, rfl,
    fun _ => rfl, ?_⟩
  intro hrc
  subst hrc
  refine ⟨?_, ?_⟩
  · intro other
    simp [malloc_mutex_postfork_child, malloc_mutex_init, fair_mutex_create, native_construct]
  · intro mem pc
    refine ⟨rfl, ?_⟩
    intro entered returned t ht
    simp [step, ht, fair_mutex_create, native_construct, fair_mutex_lock_enter]

/-- C10, as stated, fails when the guard lock cannot be constructed again: on
a handle whose guard lock was locked at the fork, with `pthread_mutex_init`
answering 12, `malloc_mutex_postfork_child` returns with the other fields
reset and the guard still locked, and a following `fair_mutex_lock` by thread
4 does not get past the guard lock: its step is not enabled. -/
theorem c10_guard_failure_counterexample :
    malloc_mutex_postfork_child
        { lock := ⟨pthread_mutex_t.locked, 1, 2, some 7, some 9⟩ } 12 true
      = some { lock := ⟨pthread_mutex_t.locked, 0, 0, none, none⟩ } ∧
    step { fm := ⟨pthread_mutex_t.locked, 0, 0, none, none⟩
           mem := fun _ => ⟨0, none⟩, pc := fun _ => ThreadState.idle
           entered := [], returned := [] } (Event.lock 4)
      = Except.error Fault.disabled :=
  ⟨by decide, rfl⟩

/-- C10, amended: when the native construction of the guard lock succeeds
(`pthread_mutex_init` answers zero), then whatever the handle held before
(guard lock in any condition, any `mutex_held`, any `num_want_mutex`, any
queue pointers) and whatever `opt_abort` is, `malloc_mutex_postfork_child`
returns without aborting and leaves the fair mutex exactly as
`fair_mutex_create` leaves any handle: guard lock free, not held, no waiter,
`wait_head` and `wait_tail` null, hence no user; and a following
`fair_mutex_lock` by any thread takes the fast path: it returns at once,
holding, without touching the queue memory. -/
theorem c10_postfork_child_resets
    (mutex : malloc_mutex_s) (rc : Int) (opt_abort : Bool) (hrc : rc = 0) :
    ∃ m1, malloc_mutex_postfork_child mutex rc opt_abort = some m1 ∧
      m1.lock = fair_mutex_create mutex.lock rc ∧
      m1.lock.mutex = pthread_mutex_t.unlocked ∧
      m1.lock.mutex_held = 0 ∧ m1.lock.num_want_mutex = 0 ∧
      m1.lock.wait_head = none ∧ m1.lock.wait_tail = none ∧
      fair_mutex_users m1.lock = 0 ∧ fair_mutex_blocked_users m1.lock = 0 ∧
      (∀ mem, IsQueue mem m1.lock.wait_head []) ∧
      (∀ other : malloc_mutex_s,
        malloc_mutex_postfork_child other rc opt_abort = some m1) ∧
      (∀ mem pc, (System.create mutex.lock mem).fm = m1.lock ∧
        ∀ entered returned t, pc t = ThreadState.idle →
        step { fm := m1.lock, mem := mem, pc := pc, entered := entered,
               returned := returned } (Event.lock t) =
          Except.ok { fm := { m1.lock with mutex_held := 1 }, mem := mem
                      pc := set_pc pc t ThreadState.holding
                      entered := entered ++ [t], returned := returned ++ [t] }) := by
  obtain ⟨m1, h1, h2, h3, h4, h5, h6, h7, h8, h9, h10⟩ :=
    postfork_child_spec mutex rc opt_abort
  have hg : m1.lock.mutex = pthread_mutex_t.unlocked := by
    rw [h2, hrc]
    simp [fair_mutex_create, native_construct]
  exact ⟨m1, h1, h2, hg, h3, h4, h5, h6, h7, h8, h9, (h10 hrc).1, (h10 hrc).2⟩

theorem c10_postfork_child_resets_witness :
    (0 : Int) = 0 ∧
    ∃ m1, malloc_mutex_postfork_child
        { lock := ⟨pthread_mutex_t.locked, 1, 2, some 7, some 9⟩ } 0 true = some m1 ∧
      m1.lock.mutex = pthread_mutex_t.unlocked ∧
      m1.lock.mutex_held = 0 ∧ fair_mutex_users m1.lock = 0 ∧
      ∃ s1, step { fm := m1.lock, mem := fun _ => ⟨0, some 3⟩, pc := fun _ => ThreadState.idle
                   entered := [], returned := [] } (Event.lock 4) = Except.ok s1 ∧
        s1.pc 4 = ThreadState.holding := by
  obtain ⟨m1, h1, _, hg, h2, _, _, _, h3, _, _, _, h4⟩ :=
    c10_postfork_child_resets { lock := ⟨pthread_mutex_t.locked, 1, 2, some 7, some 9⟩ } 0 true
      rfl
  refine ⟨rfl, m1, h1, hg, h2, h3, _,
    (h4 (fun _ => ⟨0, some 3⟩) (fun _ => ThreadState.idle)).2 [] [] 4 rfl, ?_⟩
  simp [set_pc]

/-! ## Lock and unlock on a free mutex, and the threading gate -/

/-- No step from a state that satisfies the invariant fails an assertion. -/
theorem Inv.step_not_assertion {s : System} {q : List Nat} {w hd : Option Nat}
    (h : Inv s q w hd) (e : Event) : step s e ≠ Except.error Fault.assertion := by
  cases e with
  | lock t =>
    by_cases hpc : s.pc t = ThreadState.idle
    · by_cases hfast : s.fm.mutex_held = 0 ∧ s.fm.num_want_mutex = 0
      · obtain ⟨_, _, _, s2, h1, _⟩ := h.lock_fast t hpc hfast.1 hfast.2
        rw [h1]; intro hc; cases hc
      · obtain ⟨s2, h1, _⟩ := h.lock_slow t hpc hfast
        rw [h1]; intro hc; cases hc
    · simp [step, hpc]
  | resume t =>
    by_cases hpc : s.pc t = ThreadState.signalled
    · obtain ⟨_, _, _, _, s2, h1, _⟩ := h.resume t hpc
      rw [h1]; intro hc; cases hc
    · simp [step, hpc]
  | unlock t =>
    by_cases hpc : s.pc t = ThreadState.holding
    · obtain ⟨_, _, s2, h1, _⟩ := h.unlock t hpc
      rw [h1]; intro hc; cases hc
    · simp [step, hpc]

/-- In a state that satisfies the invariant, a thread that neither waits, nor
is signalled, nor holds, is outside the mutex. -/
theorem Inv.idle_of {s : System} {q : List Nat} {w hd : Option Nat} (h : Inv s q w hd)
    (t : Nat) (h1 : t ∉ q) (h2 : w ≠ some t) (h3 : hd ≠ some t) :
    s.pc t = ThreadState.idle := by
  cases hp : s.pc t with
  | idle => rfl
  | waiting => exact absurd ((h.waiting t).mp hp) h1
  | signalled => exact absurd ((h.signalled t).mp hp) h2
  | holding => exact absurd ((h.holding t).mp hp) h3

/-- A free mutex without waiter, locked and at once unlocked by one thread. -/
theorem lock_unlock_free (s : System) (t : Nat)
    (hg : s.fm.mutex = pthread_mutex_t.unlocked)
    (hh : s.fm.mutex_held = 0) (hw : s.fm.num_want_mutex = 0) (hq : s.fm.wait_head = none)
    (hpc : s.pc t = ThreadState.idle) :
    ∃ s1 s2, step s (Event.lock t) = Except.ok s1 ∧ step s1 (Event.unlock t) = Except.ok s2 ∧
      s1.pc t = ThreadState.holding ∧ s1.fm.mutex_held = 1 ∧
      s2.fm = s.fm ∧ s2.mem = s.mem ∧ s2.pc = s.pc := by
  refine ⟨{ fm := { s.fm with mutex_held := 1 }, mem := s.mem
            pc := set_pc s.pc t ThreadState.holding
            entered := s.entered ++ [t], returned := s.returned ++ [t] },
    { fm := { s.fm with mutex_held := 0 }, mem := s.mem
      pc := set_pc (set_pc s.pc t ThreadState.holding) t ThreadState.idle
      entered := s.entered ++ [t], returned := s.returned ++ [t] },
    ?_, ?_, ?_, rfl, ?_, rfl, ?_⟩
  · simp [step, hpc, hg, fair_mutex_lock_enter, hh, hw]
  · simp [step, set_pc, hg, fair_mutex_unlock, hq, hw]
  · simp [set_pc]
  · cases hfm : s.fm
    rw [hfm] at hh
    simp only at hh
    simp [hh]
  · funext u
    by_cases hu : u = t
    · simp [set_pc, hu, hpc]
    · simp [set_pc, hu]

/-- C11, fork safety in the parent.  `malloc_mutex_prefork` is
`malloc_mutex_lock` and `malloc_mutex_postfork_parent` is
`malloc_mutex_unlock`.  In every reachable state in which the mutex is not
held and has no waiter, the queue is empty, and prefork followed at once by
postfork_parent, by any thread and for either value of the threading gate,
both return and leave the mutex, the item memory and the thread states
exactly as they were.  In every reachable state a postfork_parent called by
the holder with the gate set returns and leaves the mutex not held, and no
other call of it with the gate set returns at all; with the gate clear, which
happens only while the mutex is as created, it leaves the mutex not held as
well. -/
theorem c11_prefork_postfork_parent
    (fm : fair_mutex_t) (mem : Nat → fair_mutex_queue_item_s) (es : List Event) (s : System)
    (h : run (System.create fm mem) es = Except.ok s) (isthreaded : Bool) (t : Nat) :
    (∀ (g : Bool) (s0 : System) (u : Nat),
      malloc_mutex_prefork g s0 u = malloc_mutex_lock g s0 u ∧
      malloc_mutex_postfork_parent g s0 u = malloc_mutex_unlock g s0 u) ∧
    (s.fm.mutex_held = 0 → s.fm.num_want_mutex = 0 →
      s.fm.wait_head = none ∧ s.fm.wait_tail = none ∧
      ∃ s1 s2, malloc_mutex_prefork isthreaded s t = Except.ok s1 ∧
        malloc_mutex_postfork_parent isthreaded s1 t = Except.ok s2 ∧
        (isthreaded = true → s1.pc t = ThreadState.holding ∧ s1.fm.mutex_held = 1) ∧
        s2.fm = s.fm ∧ s2.mem = s.mem ∧ s2.pc = s.pc) ∧
    (s.pc t = ThreadState.holding →
      ∃ s1, malloc_mutex_postfork_parent true s t = Except.ok s1 ∧ s1.fm.mutex_held = 0) ∧
    (∀ s1, malloc_mutex_postfork_parent true s t = Except.ok s1 → s1.fm.mutex_held = 0) ∧
    (∀ s1 s2, malloc_mutex_prefork false (System.create fm mem) t = Except.ok s1 →
      malloc_mutex_postfork_parent false s1 t = Except.ok s2 → s2.fm.mutex_held = 0) := by
  obtain ⟨q, w, hd, hi⟩ := reachable_inv h
  refine ⟨fun _ _ _ => ⟨rfl, rfl⟩, ?_, ?_, ?_, ?_⟩
  · intro hh hw
    have hhd : hd = none := by
      have := hi.held
      rw [hh] at this
      cases hd with
      | none => rfl
      | some x => simp at this
    have hlen := hi.want
    rw [hw] at hlen
    have hq : q = [] := by
      cases q with
      | nil => rfl
      | cons a l => simp at hlen; omega
    have hw1 : w = none := by
      cases w with
      | none => rfl
      | some x => simp at hlen; omega
    subst hhd hq hw1
    have hhead : s.fm.wait_head = none := hi.queue
    have htail : s.fm.wait_tail = none := hi.tail
    have hpc : s.pc t = ThreadState.idle :=
      hi.idle_of t (by simp) (by simp) (by simp)
    refine ⟨hhead, htail, ?_⟩
    cases isthreaded with
    | false => exact ⟨s, s, rfl, rfl, fun hc => Bool.noConfusion hc, rfl, rfl, rfl⟩
    | true =>
      obtain ⟨s1, s2, a1, a2, a3, a4, a5, a6, a7⟩ :=
        lock_unlock_free s t hi.guard hh hw hhead hpc
      exact ⟨s1, s2, a1, a2, fun _ => ⟨a3, a4⟩, a5, a6, a7⟩
  · intro hpc
    obtain ⟨_, _, s2, b1, _, _, b4, _⟩ := hi.unlock t hpc
    exact ⟨s2, b1, b4⟩
  · intro s1 hs
    have hs1 : step s (Event.unlock t) = Except.ok s1 := hs
    have hpc : s.pc t = ThreadState.holding := by
      by_contra hne
      simp [step, hne] at hs1
    obtain ⟨_, _, s2, b1, _, _, b4, _⟩ := hi.unlock t hpc
    rw [b1] at hs1
    cases hs1
    exact b4
  · intro s1 s2 h1 h2
    have e1 : s1 = System.create fm mem := by
      have : Except.ok (System.create fm mem) = Except.ok s1 := h1
      cases this; rfl
    have e2 : s2 = s1 := by
      have : Except.ok s1 = Except.ok s2 := h2
      cases this; rfl
    rw [e2, e1]
    rfl

theorem c11_prefork_postfork_parent_witness :
    (∃ s, run (System.create ⟨pthread_mutex_t.unconstructed, 3, 4, some 5, none⟩
          (fun _ => ⟨0, some 0⟩)) [Event.lock 0, Event.unlock 0] = Except.ok s ∧
      s.fm.mutex_held = 0 ∧ s.fm.num_want_mutex = 0 ∧
      ∃ s1 s2, malloc_mutex_prefork true s 5 = Except.ok s1 ∧
        malloc_mutex_postfork_parent true s1 5 = Except.ok s2 ∧
        s1.pc 5 = ThreadState.holding ∧ s1.fm.mutex_held = 1 ∧
        s2.fm = s.fm ∧ s2.mem = s.mem ∧ s2.pc = s.pc) ∧
    (∃ s, run (System.create ⟨pthread_mutex_t.unconstructed, 3, 4, some 5, none⟩
          (fun _ => ⟨0, some 0⟩)) [Event.lock 0, Event.lock 1] = Except.ok s ∧
      s.pc 0 = ThreadState.holding ∧ s.fm.mutex_held = 1 ∧ s.fm.num_want_mutex = 1 ∧
      ∃ s1, malloc_mutex_postfork_parent true s 0 = Except.ok s1 ∧ s1.fm.mutex_held = 0) := by
  constructor
  · obtain ⟨_, h2, _⟩ :=
      c11_prefork_postfork_parent ⟨pthread_mutex_t.unconstructed, 3, 4, some 5, none⟩
        (fun _ => ⟨0, some 0⟩) [Event.lock 0, Event.unlock 0] _ rfl true 5
    obtain ⟨_, _, s1, s2, a1, a2, a3, a4, a5, a6⟩ := h2 rfl rfl
    exact ⟨_, rfl, rfl, rfl, s1, s2, a1, a2, (a3 rfl).1, (a3 rfl).2, a4, a5, a6⟩
  · obtain ⟨_, _, h3, _⟩ :=
      c11_prefork_postfork_parent ⟨pthread_mutex_t.unconstructed, 3, 4, some 5, none⟩
        (fun _ => ⟨0, some 0⟩) [Event.lock 0, Event.lock 1] _ rfl true 0
    exact ⟨_, rfl, rfl, rfl, rfl, h3 rfl⟩

/-- C12, threading-gate elision.  With the gate clear, `malloc_mutex_lock`,
`malloc_mutex_unlock`, `malloc_mutex_prefork` and
`malloc_mutex_postfork_parent` return at once from every state, whatever the
guard lock, the mutex fields and the caller are, and leave the whole state as
it was.  With the gate set they are the lock and unlock steps of the fair
mutex. -/
theorem c12_gate_elision (s : System) (t : Nat) :
    malloc_mutex_lock false s t = Except.ok s ∧
    malloc_mutex_unlock false s t = Except.ok s ∧
    malloc_mutex_prefork false s t = Except.ok s ∧
    malloc_mutex_postfork_parent false s t = Except.ok s ∧
    malloc_mutex_lock true s t = step s (Event.lock t) ∧
    malloc_mutex_unlock true s t = step s (Event.unlock t) ∧
    malloc_mutex_prefork true s t = step s (Event.lock t) ∧
    malloc_mutex_postfork_parent true s t = step s (Event.unlock t) :=
  ⟨rfl, rfl, rfl, rfl, rfl, rfl, rfl, rfl⟩

/-! ## The two paths of lock -/

/-- C13, as stated, fails: after thread 0 locked, thread 1 queued and thread 0
unlocked, the mutex is not held and the wait queue is empty (thread 1 is
signalled and has not resumed), yet the lock of thread 2 takes the slow path:
it creates and enqueues an item, raises the waiter count to two and blocks. -/
theorem c13_fast_path_counterexample :
    ∃ s s1,
      run (System.create ⟨pthread_mutex_t.unconstructed, 0, 0, none, none⟩
        (fun _ => ⟨0, none⟩)) [Event.lock 0, Event.lock 1, Event.unlock 0] = Except.ok s ∧
      s.fm.mutex_held = 0 ∧ s.fm.wait_head = none ∧ s.fm.wait_tail = none ∧
      IsQueue s.mem s.fm.wait_head [] ∧ s.fm.num_want_mutex = 1 ∧
      s.pc 2 = ThreadState.idle ∧
      step s (Event.lock 2) = Except.ok s1 ∧
      s1.pc 2 = ThreadState.waiting ∧ s1.fm.mutex_held = 0 ∧
      s1.fm.wait_head = some 2 ∧ s1.fm.num_want_mutex = 2 :=
  ⟨_, _, rfl, rfl, rfl, rfl, rfl, rfl, rfl, rfl, rfl, rfl, rfl, rfl⟩

/-- C13, amended: in every reachable state and for every thread `t` outside
the mutex, if the mutex is not held and the waiter count is zero, which is the
case exactly when it is not held, the queue is empty and no signalled waiter
has yet to resume, then `fair_mutex_lock` sets `mutex_held`, returns at once,
and changes neither the other fields, nor the item memory, nor the state of
another thread; in every other state it takes the slow path: it does not
return, leaves `mutex_held` as it was, adds one to the waiter count and puts
the item of `t` at the tail of the queue. -/
theorem c13_lock_paths
    (fm : fair_mutex_t) (mem : Nat → fair_mutex_queue_item_s) (es : List Event) (s : System)
    (h : run (System.create fm mem) es = Except.ok s) (t : Nat)
    (hpc : s.pc t = ThreadState.idle) :
    ((s.fm.mutex_held = 0 ∧ s.fm.num_want_mutex = 0) ↔
      (s.fm.mutex_held = 0 ∧ s.fm.wait_head = none ∧
        ∀ u, s.pc u ≠ ThreadState.signalled)) ∧
    (s.fm.mutex_held = 0 ∧ s.fm.num_want_mutex = 0 →
      ∃ s1, step s (Event.lock t) = Except.ok s1 ∧
        s1.fm = { s.fm with mutex_held := 1 } ∧ s1.mem = s.mem ∧
        s1.pc t = ThreadState.holding ∧ (∀ u, u ≠ t → s1.pc u = s.pc u) ∧
        s1.returned = s.returned ++ [t]) ∧
    (¬ (s.fm.mutex_held = 0 ∧ s.fm.num_want_mutex = 0) →
      ∃ s1 q, step s (Event.lock t) = Except.ok s1 ∧
        s1.pc t = ThreadState.waiting ∧ (∀ u, u ≠ t → s1.pc u = s.pc u) ∧
        s1.returned = s.returned ∧
        s1.fm.mutex_held = s.fm.mutex_held ∧
        s1.fm.num_want_mutex = s.fm.num_want_mutex + 1 ∧
        IsQueue s.mem s.fm.wait_head q ∧ IsQueue s1.mem s1.fm.wait_head (q ++ [t]) ∧
        s1.fm.wait_tail = some t ∧ (s1.mem t).cond = t) := by
  obtain ⟨q, w, hd, hi⟩ := reachable_inv h
  refine ⟨?_, ?_, ?_⟩
  · constructor
    · rintro ⟨hh, hw⟩
      obtain ⟨hq, hw1, _, _⟩ := hi.lock_fast t hpc hh hw
      subst hq hw1
      refine ⟨hh, hi.queue, ?_⟩
      intro u hu
      have := (hi.signalled u).mp hu
      cases this
    · rintro ⟨hh, hq, hns⟩
      refine ⟨hh, ?_⟩
      have hq1 : q = [] := by
        cases q with
        | nil => rfl
        | cons a l =>
          have := hi.queue.1
          rw [hq] at this
          cases this
      have hw1 : w = none := by
        cases w with
        | none => rfl
        | some x => exact absurd ((hi.signalled x).mpr rfl) (hns x)
      rw [hi.want, hq1, hw1]
      simp
  · rintro ⟨hh, hw⟩
    obtain ⟨_, _, _, s1, a1, _, a3, a4, a5, _, a7⟩ := hi.lock_fast t hpc hh hw
    refine ⟨s1, a1, a3, a4, ?_, ?_, a7⟩
    · rw [a5]; simp [set_pc]
    · intro u hu
      rw [a5]; simp [set_pc, hu]
  · intro hslow
    obtain ⟨s1, a1, a2, a3, a4, a5, _, a7⟩ := hi.lock_slow t hpc hslow
    refine ⟨s1, q, a1, ?_, ?_, a7, a3, a4, hi.queue, a2.queue, ?_, ?_⟩
    · rw [a5]; simp [set_pc]
    · intro u hu
      rw [a5]; simp [set_pc, hu]
    · have := a2.tail
      simpa using this
    · exact a2.cond t (by simp)

theorem c13_lock_paths_witness :
    ∃ s, run (System.create ⟨pthread_mutex_t.unconstructed, 0, 0, none, none⟩
        (fun _ => ⟨0, none⟩)) [Event.lock 0, Event.lock 1, Event.unlock 0] = Except.ok s ∧
      s.pc 2 = ThreadState.idle ∧
      (¬ (s.fm.mutex_held = 0 ∧ s.fm.num_want_mutex = 0) →
        ∃ s1 q, step s (Event.lock 2) = Except.ok s1 ∧
          s1.pc 2 = ThreadState.waiting ∧ (∀ u, u ≠ 2 → s1.pc u = s.pc u) ∧
          s1.returned = s.returned ∧
          s1.fm.mutex_held = s.fm.mutex_held ∧
          s1.fm.num_want_mutex = s.fm.num_want_mutex + 1 ∧
          IsQueue s.mem s.fm.wait_head q ∧ IsQueue s1.mem s1.fm.wait_head (q ++ [2]) ∧
          s1.fm.wait_tail = some 2 ∧ (s1.mem 2).cond = 2) :=
  ⟨_, rfl, rfl,
    (c13_lock_paths ⟨pthread_mutex_t.unconstructed, 0, 0, none, none⟩
      (fun _ => ⟨0, none⟩) [Event.lock 0, Event.lock 1, Event.unlock 0] _ rfl 2 rfl).2.2⟩

/-! ## A wait that returns without a signal -/

/-- C14, the code at the failing input.  Threads 0, 1, 2 lock in turn and
thread 0 unlocks: thread 1 is signalled, thread 2 is queued.  If the wait of
thread 2 now returns without a signal, the code after the wait passes both
assertions, sets `mutex_held` and returns from lock: thread 2 holds the
mutex ahead of thread 1 while its own item is still the head of the queue,
and the resumption of thread 1 then fails the assertion on `mutex_held`.
Likewise, while thread 0 still holds, a wait of thread 1 that returns
without a signal does not block again: the assertion on `mutex_held`
fails. -/
theorem c14_spurious_wake_proceeds :
    ∃ s s1,
      run (System.create ⟨pthread_mutex_t.unconstructed, 0, 0, none, none⟩
        (fun _ => ⟨0, none⟩))
        [Event.lock 0, Event.lock 1, Event.lock 2, Event.unlock 0] = Except.ok s ∧
      s.pc 1 = ThreadState.signalled ∧ s.pc 2 = ThreadState.waiting ∧
      spurious_wake s 2 = Except.ok s1 ∧
      s1.pc 2 = ThreadState.holding ∧ s1.fm.mutex_held = 1 ∧
      s1.returned = [0, 2] ∧ s1.entered = [0, 1, 2] ∧
      IsQueue s1.mem s1.fm.wait_head [2] ∧
      s1.pc 1 = ThreadState.signalled ∧
      step s1 (Event.resume 1) = Except.error Fault.assertion ∧
      ∃ s2,
        run (System.create ⟨pthread_mutex_t.unconstructed, 0, 0, none, none⟩
          (fun _ => ⟨0, none⟩)) [Event.lock 0, Event.lock 1] = Except.ok s2 ∧
        s2.pc 0 = ThreadState.holding ∧ s2.pc 1 = ThreadState.waiting ∧
        spurious_wake s2 1 = Except.error Fault.assertion :=
  ⟨_, _, rfl, rfl, rfl, rfl, rfl, rfl, rfl, rfl, by decide, rfl, rfl, _, rfl, rfl, rfl, rfl⟩

/-! ## Construction of the guard lock -/

/-- C15, the code at the failing input.  When `pthread_mutex_init` fails on
the guard lock (here with return code 12 on a guard that was never
constructed), `fair_mutex_create` still returns, with the guard lock not
constructed and the other fields reset; `malloc_mutex_init` returns `false`,
its value for success; and `malloc_mutex_postfork_child` returns without
`abort()` even when `opt_abort` is set.  This holds for every handle and
every non-zero return code. -/
theorem c15_guard_failure_ignored :
    fair_mutex_create ⟨pthread_mutex_t.unconstructed, 0, 0, none, none⟩ 12
      = ⟨pthread_mutex_t.unconstructed, 0, 0, none, none⟩ ∧
    malloc_mutex_init { lock := ⟨pthread_mutex_t.unconstructed, 0, 0, none, none⟩ } 12
      = (false, { lock := ⟨pthread_mutex_t.unconstructed, 0, 0, none, none⟩ }) ∧
    malloc_mutex_postfork_child
        { lock := ⟨pthread_mutex_t.unconstructed, 0, 0, none, none⟩ } 12 true
      = some { lock := ⟨pthread_mutex_t.unconstructed, 0, 0, none, none⟩ } ∧
    (∀ (mutex : malloc_mutex_s) (rc : Int) (opt_abort : Bool), rc ≠ 0 →
      (malloc_mutex_init mutex rc).1 = false ∧
      (malloc_mutex_init mutex rc).2.lock.mutex = mutex.lock.mutex ∧
      malloc_mutex_postfork_child mutex rc opt_abort = some (malloc_mutex_init mutex rc).2) := by
  refine ⟨by decide, by decide, by decide, ?_⟩
  intro mutex rc opt_abort hrc
  refine ⟨rfl, ?_, rfl⟩
  simp [malloc_mutex_init, fair_mutex_create, native_construct, hrc]

/-! ## Unlock -/

/-- C16, unlock.  Take a mutex whose linked queue is well formed and holds
the items `q`, and whose waiter count is positive when `q` is not empty and
zero when it is (what the assertions of `fair_mutex_unlock` ask for).  Then
`fair_mutex_unlock` returns with `mutex_held` cleared, the waiter count and
the guard lock as they were; when `q` is `m :: rest` the queue then holds
`rest`, in order, and the call signals once, the condition variable of `m`;
when `q` is empty the call signals nothing and the queue is still empty.
Every reachable state in which some thread holds the mutex is of this
kind, and there the waiter count is the length of the queue. -/
theorem c16_unlock_hands_off_to_head
    (fm : fair_mutex_t) (mem : Nat → fair_mutex_queue_item_s) (q : List Nat)
    (hrep : QueueRep fm mem q)
    (hpos : q ≠ [] → fm.num_want_mutex > 0) (hzero : q = [] → fm.num_want_mutex = 0) :
    (∃ fm1, fair_mutex_unlock fm mem = some (fm1, q.head?.map (fun m => (mem m).cond)) ∧
      fm1.mutex_held = 0 ∧ fm1.num_want_mutex = fm.num_want_mutex ∧
      fm1.mutex = fm.mutex ∧ QueueRep fm1 mem q.tail ∧
      (q = [] → fair_mutex_unlock fm mem = some ({ fm with mutex_held := 0 }, none))) ∧
    (∀ (fm0 : fair_mutex_t) (mem0 : Nat → fair_mutex_queue_item_s) (es : List Event)
      (s : System) (t : Nat),
      run (System.create fm0 mem0) es = Except.ok s → s.pc t = ThreadState.holding →
      ∃ q1, QueueRep s.fm s.mem q1 ∧ s.fm.num_want_mutex = (q1.length : Int) ∧
        (∀ m ∈ q1, (s.mem m).cond = m ∧ s.pc m = ThreadState.waiting)) := by
  constructor
  · cases q with
    | nil =>
      have hhead : fm.wait_head = none := hrep.1
      have hz := hzero rfl
      have e : fair_mutex_unlock fm mem = some ({ fm with mutex_held := 0 }, none) := by
        simp [fair_mutex_unlock, hhead, hz]
      exact ⟨{ fm with mutex_held := 0 }, e, rfl, rfl, rfl, ⟨hrep.1, hrep.2⟩, fun _ => e⟩
    | cons m rest =>
      have hhead : fm.wait_head = some m := hrep.1.1
      have hp := hpos (List.cons_ne_nil _ _)
      obtain ⟨fm1, d1, d2, d3, d4, d5, d6⟩ :=
        deq_item_spec
          { mutex := fm.mutex, mutex_held := 0, num_want_mutex := fm.num_want_mutex
            wait_head := fm.wait_head, wait_tail := fm.wait_tail }
          mem m rest hrep.1 hrep.2
      refine ⟨fm1, ?_, d5, d6, d4, ⟨d2, d3⟩, fun hc => by cases hc⟩
      simp only [fair_mutex_unlock]
      rw [d1]
      simp [hhead, hp]
  · intro fm0 mem0 es s t hr hpc
    obtain ⟨q1, w, hd, hi⟩ := reachable_inv hr
    have hhd : hd = some t := (hi.holding t).mp hpc
    have hw : w = none := hi.excl (by rw [hhd]; rfl)
    subst hw
    refine ⟨q1, ⟨hi.queue, hi.tail⟩, ?_, ?_⟩
    · have := hi.want
      simpa using this
    · intro m hm
      exact ⟨hi.cond m hm, (hi.waiting m).mpr hm⟩

theorem c16_unlock_hands_off_to_head_witness :
    ∃ fm1, fair_mutex_unlock ⟨pthread_mutex_t.unlocked, 1, 2, some 4, some 6⟩
        (fun a => if a = 4 then ⟨40, some 6⟩ else ⟨60, none⟩)
        = some (fm1, ([4, 6] : List Nat).head?.map
            (fun m => ((fun a => if a = 4 then (⟨40, some 6⟩ : fair_mutex_queue_item_s)
              else ⟨60, none⟩) m).cond)) ∧
      fm1.mutex_held = 0 ∧ fm1.num_want_mutex = 2 ∧ fm1.wait_head = some 6 := by
  obtain ⟨⟨fm1, h1, h2, h3, _, h5, _⟩, _⟩ :=
    c16_unlock_hands_off_to_head ⟨pthread_mutex_t.unlocked, 1, 2, some 4, some 6⟩
      (fun a => if a = 4 then ⟨40, some 6⟩ else ⟨60, none⟩) [4, 6]
      (by constructor <;> decide) (by intro _; decide) (by intro hc; cases hc)
  exact ⟨fm1, h1, h2, h3, h5.1.1⟩

/-! ## State invariants -/

/-- C17, invariants of the mutex state.  In every state reached from
`fair_mutex_create`: if the mutex is not held and the waiter count is zero the
queue is empty; if the queue is not empty the waiter count is positive; at
most one thread is signalled and not yet resumed; and every step that takes
`mutex_held` from zero to non-zero is either the lock of a thread on the fast
path, taken while no thread is signalled or queued, or the resumption of the
signalled thread, after which no thread is signalled any more. -/
theorem c17_state_invariants
    (fm : fair_mutex_t) (mem : Nat → fair_mutex_queue_item_s) (es : List Event) (s : System)
    (h : run (System.create fm mem) es = Except.ok s) :
    (s.fm.mutex_held = 0 ∧ s.fm.num_want_mutex = 0 →
      s.fm.wait_head = none ∧ s.fm.wait_tail = none) ∧
    (s.fm.wait_head ≠ none → s.fm.num_want_mutex > 0) ∧
    (∀ u v, s.pc u = ThreadState.signalled → s.pc v = ThreadState.signalled → u = v) ∧
    (∀ (e : Event) (s1 : System), step s e = Except.ok s1 →
      s.fm.mutex_held = 0 → s1.fm.mutex_held ≠ 0 →
      (∃ t, e = Event.lock t ∧ (∀ u, s.pc u ≠ ThreadState.signalled) ∧
        (∀ u, s.pc u ≠ ThreadState.waiting)) ∨
      (∃ t, e = Event.resume t ∧ s.pc t = ThreadState.signalled ∧
        (∀ u, s1.pc u ≠ ThreadState.signalled))) := by
  obtain ⟨q, w, hd, hi⟩ := reachable_inv h
  refine ⟨?_, ?_, ?_, ?_⟩
  · rintro ⟨_, hw⟩
    have hlen := hi.want
    rw [hw] at hlen
    have hq : q = [] := by
      cases q with
      | nil => rfl
      | cons a l => simp at hlen; omega
    subst hq
    exact ⟨hi.queue, hi.tail⟩
  · intro hne
    rw [hi.want]
    cases q with
    | nil => exact absurd hi.queue hne
    | cons a l => simp; omega
  · intro u v hu hv
    have e1 := (hi.signalled u).mp hu
    have e2 := (hi.signalled v).mp hv
    rw [e1] at e2
    exact Option.some.inj e2
  · intro e s1 hs hh hne
    cases e with
    | lock t =>
      have hpc : s.pc t = ThreadState.idle := by
        by_contra hc
        simp [step, hc] at hs
      by_cases hfast : s.fm.mutex_held = 0 ∧ s.fm.num_want_mutex = 0
      · obtain ⟨hq, hw1, _, _⟩ := hi.lock_fast t hpc hfast.1 hfast.2
        subst hq hw1
        left
        refine ⟨t, rfl, ?_, ?_⟩
        · intro u hu
          have := (hi.signalled u).mp hu
          cases this
        · intro u hu
          have := (hi.waiting u).mp hu
          simp at this
      · obtain ⟨s2, a1, _, a3, _⟩ := hi.lock_slow t hpc hfast
        rw [a1] at hs
        cases hs
        rw [a3] at hne
        exact absurd hh hne
    | resume t =>
      have hpc : s.pc t = ThreadState.signalled := by
        by_contra hc
        simp [step, hc] at hs
      obtain ⟨_, _, _, _, s2, a1, a2, _⟩ := hi.resume t hpc
      rw [a1] at hs
      cases hs
      right
      refine ⟨t, rfl, hpc, ?_⟩
      intro u hu
      have := (a2.signalled u).mp hu
      cases this
    | unlock t =>
      have hpc : s.pc t = ThreadState.holding := by
        by_contra hc
        simp [step, hc] at hs
      obtain ⟨_, _, s2, a1, _, _, a4, _⟩ := hi.unlock t hpc
      rw [a1] at hs
      cases hs
      exact absurd a4 hne

theorem c17_state_invariants_witness :
    ∃ s, run (System.create ⟨pthread_mutex_t.unconstructed, 0, 0, none, none⟩
        (fun _ => ⟨0, none⟩)) [Event.lock 0, Event.lock 1, Event.lock 2, Event.unlock 0]
        = Except.ok s ∧
      s.fm.wait_head = some 2 ∧ s.pc 1 = ThreadState.signalled ∧
      (s.fm.wait_head ≠ none → s.fm.num_want_mutex > 0) :=
  ⟨_, rfl, rfl, rfl,
    (c17_state_invariants ⟨pthread_mutex_t.unconstructed, 0, 0, none, none⟩
      (fun _ => ⟨0, none⟩) [Event.lock 0, Event.lock 1, Event.lock 2, Event.unlock 0]
      _ rfl).2.1⟩

/-! ## The linked queue and the FIFO list -/

theorem chain_last_next {next : Nat → Option Nat} {tl : Nat} :
    ∀ {q0 : List Nat} {head : Option Nat}, IsChain next head (q0 ++ [tl]) → next tl = none := by
  intro q0
  induction q0 with
  | nil => intro head h; exact h.2
  | cons m q0 ih => intro head h; exact ih h.2

theorem QueueRep.head_none_iff {fm : fair_mutex_t} {mem : Nat → fair_mutex_queue_item_s}
    {q : List Nat} (h : QueueRep fm mem q) : fm.wait_head = none ↔ fm.wait_tail = none := by
  cases q with
  | nil =>
    have h1 : fm.wait_head = none := h.1
    have h2 : fm.wait_tail = none := h.2
    simp [h1, h2]
  | cons m rest =>
    have h1 : fm.wait_head = some m := h.1.1
    obtain ⟨y, hy⟩ : ∃ y, (m :: rest).getLast? = some y :=
      ⟨(m :: rest).getLast (List.cons_ne_nil _ _), List.getLast?_eq_getLast _ _⟩
    have h2 : fm.wait_tail = some y := h.2.trans hy
    simp [h1, h2]

theorem QueueRep.tail_is_last {fm : fair_mutex_t} {mem : Nat → fair_mutex_queue_item_s}
    {q : List Nat} (h : QueueRep fm mem q) (tl : Nat) (ht : fm.wait_tail = some tl) :
    q.getLast? = some tl ∧ tl ∈ q ∧ (mem tl).next = none := by
  have h1 : q.getLast? = some tl := h.2.symm.trans ht
  refine ⟨h1, List.mem_of_getLast?_eq_some h1, ?_⟩
  rcases List.eq_nil_or_concat q with hnil | ⟨q0, x, hq0⟩
  · subst hnil; simp at h1
  · rw [List.concat_eq_append] at hq0
    subst hq0
    have e : x = tl := by simpa using h1
    subst e
    exact chain_last_next h.1

theorem enq_item_next_frame (fm : fair_mutex_t) (mem : Nat → fair_mutex_queue_item_s)
    (item : Nat) (q : List Nat) (hrep : QueueRep fm mem q)
    (fm1 : fair_mutex_t) (mem1 : Nat → fair_mutex_queue_item_s)
    (he : enq_item fm mem item = some (fm1, mem1)) :
    ∀ a, a ∉ q → (mem1 a).next = (mem a).next := by
  intro a ha
  cases htail : fm.wait_tail with
  | none =>
    simp only [enq_item, htail] at he
    split at he
    · cases he
    · split at he
      · cases he
      · cases he; rfl
  | some tl =>
    have hmem : tl ∈ q := (hrep.tail_is_last tl htail).2.1
    have hne : a ≠ tl := fun e => ha (e ▸ hmem)
    simp only [enq_item, htail] at he
    split at he
    · cases he
    · cases he
      simp [set_next, hne]

theorem enq_items_spec :
    ∀ (items : List Nat) (fm : fair_mutex_t) (mem : Nat → fair_mutex_queue_item_s)
      (q : List Nat),
      QueueRep fm mem q → items.Nodup → (∀ i ∈ items, i ∉ q) →
      (∀ i ∈ items, (mem i).next = none) →
      ∃ fm1 mem1, enq_items fm mem items = some (fm1, mem1) ∧
        QueueRep fm1 mem1 (q ++ items) ∧ (∀ a, (mem1 a).cond = (mem a).cond) := by
  intro items
  induction items with
  | nil =>
    intro fm mem q hrep _ _ _
    exact ⟨fm, mem, rfl, by simpa using hrep, fun _ => rfl⟩
  | cons i items ih =>
    intro fm mem q hrep hnd hfresh hnext
    have hnd2 := List.nodup_cons.mp hnd
    obtain ⟨fm1, mem1, e1, e2, e3, e4, _, _, _⟩ :=
      enq_item_spec fm mem i q hrep.1 hrep.2 (hfresh i (List.mem_cons_self _ _))
        (hnext i (List.mem_cons_self _ _))
    have hframe := enq_item_next_frame fm mem i q hrep fm1 mem1 e1
    obtain ⟨fm2, mem2, f1, f2, f3⟩ := ih fm1 mem1 (q ++ [i]) ⟨e2, e3⟩ hnd2.2
      (fun j hj hin => by
        rcases List.mem_append.mp hin with h1 | h1
        · exact hfresh j (List.mem_cons_of_mem _ hj) h1
        · have : j = i := by simpa using h1
          exact hnd2.1 (this ▸ hj))
      (fun j hj => by
        rw [hframe j (hfresh j (List.mem_cons_of_mem _ hj))]
        exact hnext j (List.mem_cons_of_mem _ hj))
    refine ⟨fm2, mem2, ?_, ?_, ?_⟩
    · simp [enq_items, e1, f1]
    · simpa using f2
    · intro a; rw [f3 a, e4 a]

theorem deq_items_spec (mem : Nat → fair_mutex_queue_item_s) :
    ∀ (q : List Nat) (fm : fair_mutex_t), QueueRep fm mem q →
      ∃ fm1, deq_items fm mem q.length = some (fm1, q.map (fun a => (mem a).cond)) ∧
        QueueRep fm1 mem [] := by
  intro q
  induction q with
  | nil => intro fm h; exact ⟨fm, rfl, h⟩
  | cons m rest ih =>
    intro fm h
    obtain ⟨fm1, d1, d2, d3, _⟩ := deq_item_spec fm mem m rest h.1 h.2
    obtain ⟨fm2, g1, g2⟩ := ih fm1 ⟨d2, d3⟩
    exact ⟨fm2, by simp [deq_items, d1, g1], g2⟩

/-- C18, the linked queue refines a FIFO list.  Let the queue of `fm` be well
formed and hold the items `q`.  Then `wait_head` is null exactly when
`wait_tail` is, `wait_tail` is the last item and its `next` is null, and no
item occurs twice.  `enq_item` with an item that is not in the queue and whose
`next` is null returns and leaves a well-formed queue holding `fifo_enq q
item`, the condition variables and the other fields untouched.  When `q` is
`x :: rest`, `deq_item` returns the condition variable of `x`, as `fifo_deq`
returns `x`, and leaves a well-formed queue holding `rest`, with `wait_tail`
null when `rest` is empty.  Hence enqueueing distinct fresh items one after
the other and then dequeueing as many times as the queue is long returns the
condition variables of the old items followed by those of the new ones, each
in the order it entered, and leaves the queue empty. -/
theorem c18_queue_refines_fifo
    (fm : fair_mutex_t) (mem : Nat → fair_mutex_queue_item_s) (q : List Nat)
    (hrep : QueueRep fm mem q) :
    ((fm.wait_head = none ↔ fm.wait_tail = none) ∧ q.Nodup ∧
      ∀ tl, fm.wait_tail = some tl → q.getLast? = some tl ∧ (mem tl).next = none) ∧
    (∀ item, item ∉ q → (mem item).next = none →
      ∃ fm1 mem1, enq_item fm mem item = some (fm1, mem1) ∧
        QueueRep fm1 mem1 (fifo_enq q item) ∧ fm1.wait_tail = some item ∧
        (∀ a, (mem1 a).cond = (mem a).cond) ∧
        fm1.mutex = fm.mutex ∧ fm1.mutex_held = fm.mutex_held ∧
        fm1.num_want_mutex = fm.num_want_mutex) ∧
    (∀ x rest, q = x :: rest →
      ∃ fm1, deq_item fm mem = some (fm1, (mem x).cond) ∧
        fifo_deq q = some (x, rest) ∧ QueueRep fm1 mem rest ∧
        (rest = [] → fm1.wait_head = none ∧ fm1.wait_tail = none) ∧
        fm1.mutex = fm.mutex ∧ fm1.mutex_held = fm.mutex_held ∧
        fm1.num_want_mutex = fm.num_want_mutex) ∧
    (∀ items : List Nat, items.Nodup → (∀ i ∈ items, i ∉ q) →
      (∀ i ∈ items, (mem i).next = none) →
      ∃ fm1 mem1 fm2, enq_items fm mem items = some (fm1, mem1) ∧
        QueueRep fm1 mem1 (q ++ items) ∧
        deq_items fm1 mem1 (q ++ items).length
          = some (fm2, (q ++ items).map (fun a => (mem a).cond)) ∧
        QueueRep fm2 mem1 []) := by
  refine ⟨⟨hrep.head_none_iff, IsChain.nodup hrep.1, ?_⟩, ?_, ?_, ?_⟩
  · intro tl ht
    have := hrep.tail_is_last tl ht
    exact ⟨this.1, this.2.2⟩
  · intro item hfresh hnext
    obtain ⟨fm1, mem1, e1, e2, e3, e4, e5, e6, e7⟩ :=
      enq_item_spec fm mem item q hrep.1 hrep.2 hfresh hnext
    refine ⟨fm1, mem1, e1, ⟨e2, e3⟩, ?_, e4, e5, e6, e7⟩
    rw [e3]; simp
  · intro x rest hq
    subst hq
    obtain ⟨fm1, d1, d2, d3, d4, d5, d6⟩ := deq_item_spec fm mem x rest hrep.1 hrep.2
    refine ⟨fm1, d1, rfl, ⟨d2, d3⟩, ?_, d4, d5, d6⟩
    intro hr
    subst hr
    exact ⟨d2, d3⟩
  · intro items hnd hfresh hnext
    obtain ⟨fm1, mem1, e1, e2, e3⟩ := enq_items_spec items fm mem q hrep hnd hfresh hnext
    obtain ⟨fm2, g1, g2⟩ := deq_items_spec mem1 (q ++ items) fm1 e2
    refine ⟨fm1, mem1, fm2, e1, e2, ?_, g2⟩
    rw [g1]
    congr 2
    apply List.map_congr_left
    intro a _
    exact e3 a

theorem c18_queue_refines_fifo_witness :
    QueueRep ⟨pthread_mutex_t.unlocked, 1, 2, some 4, some 6⟩
      (fun a => if a = 4 then ⟨40, some 6⟩ else if a = 6 then ⟨60, none⟩ else ⟨a, none⟩)
      [4, 6] ∧
    ∃ fm1 mem1 fm2,
      enq_items ⟨pthread_mutex_t.unlocked, 1, 2, some 4, some 6⟩
        (fun a => if a = 4 then ⟨40, some 6⟩ else if a = 6 then ⟨60, none⟩ else ⟨a, none⟩)
        [9, 7] = some (fm1, mem1) ∧
      deq_items fm1 mem1 4 = some (fm2, [40, 60, 9, 7]) := by
  have hrep : QueueRep ⟨pthread_mutex_t.unlocked, 1, 2, some 4, some 6⟩
      (fun a => if a = 4 then ⟨40, some 6⟩ else if a = 6 then ⟨60, none⟩ else ⟨a, none⟩)
      [4, 6] := by constructor <;> decide
  obtain ⟨_, _, _, h4⟩ :=
    c18_queue_refines_fifo ⟨pthread_mutex_t.unlocked, 1, 2, some 4, some 6⟩
      (fun a => if a = 4 then ⟨40, some 6⟩ else if a = 6 then ⟨60, none⟩ else ⟨a, none⟩)
      [4, 6] hrep
  obtain ⟨fm1, mem1, fm2, a1, _, a3, _⟩ := h4 [9, 7] (by decide) (by decide) (by decide)
  exact ⟨hrep, fm1, mem1, fm2, a1, a3⟩

/-! ## Assertions -/

theorem Inv.run_not_assertion {es : List Event} :
    ∀ {s : System} {q : List Nat} {w hd : Option Nat}, Inv s q w hd →
      run s es ≠ Except.error Fault.assertion := by
  induction es with
  | nil => intro s q w hd _ hc; simp [run] at hc
  | cons e es ih =>
    intro s q w hd h hc
    rw [run] at hc
    cases hstep : step s e with
    | ok s1 =>
      rw [hstep] at hc
      obtain ⟨q1, w1, hd1, i1, _, _⟩ := h.step_ok hstep
      exact ih i1 hc
    | error f =>
      rw [hstep] at hc
      have : f = Fault.assertion := by
        cases hc; rfl
      rw [this] at hstep
      exact h.step_not_assertion e hstep

/-- C19, assertion validity.  No schedule of lock, resume and unlock steps
run from `fair_mutex_create` ever fails an assertion of `enq_item`,
`deq_item`, `fair_mutex_lock` or `fair_mutex_unlock`: a schedule either runs
or stops at a step that is not enabled.  In every state it reaches, no
further step fails an assertion; a signalled waiter finds `mutex_held` zero
and a positive waiter count, so its resumption runs; the holder finds the
waiter count zero whenever the queue is empty and positive otherwise, so its
unlock runs; and the lock of a thread outside the mutex runs. -/
theorem c19_assertions_hold
    (fm : fair_mutex_t) (mem : Nat → fair_mutex_queue_item_s) (es : List Event) :
    run (System.create fm mem) es ≠ Except.error Fault.assertion ∧
    (∀ s, run (System.create fm mem) es = Except.ok s →
      (∀ e, step s e ≠ Except.error Fault.assertion) ∧
      (∀ t, s.pc t = ThreadState.signalled →
        s.fm.mutex_held = 0 ∧ s.fm.num_want_mutex > 0 ∧
        ∃ s1, step s (Event.resume t) = Except.ok s1) ∧
      (∀ t, s.pc t = ThreadState.holding →
        (s.fm.wait_head = none → s.fm.num_want_mutex = 0) ∧
        (s.fm.wait_head ≠ none → s.fm.num_want_mutex > 0 ∧ s.fm.wait_tail ≠ none) ∧
        ∃ s1, step s (Event.unlock t) = Except.ok s1) ∧
      (∀ t, s.pc t = ThreadState.idle →
        ∃ s1, step s (Event.lock t) = Except.ok s1)) := by
  refine ⟨(Inv.create fm mem).run_not_assertion, ?_⟩
  intro s hr
  obtain ⟨q, w, hd, hi⟩ := reachable_inv hr
  refine ⟨hi.step_not_assertion, ?_, ?_, ?_⟩
  · intro t ht
    obtain ⟨_, _, a3, a4, s1, a5, _⟩ := hi.resume t ht
    exact ⟨a3, a4, s1, a5⟩
  · intro t ht
    obtain ⟨hw, _, s1, a1, _⟩ := hi.unlock t ht
    subst hw
    have hwant : s.fm.num_want_mutex = (q.length : Int) := by
      have := hi.want
      simpa using this
    refine ⟨?_, ?_, s1, a1⟩
    · intro hh
      cases q with
      | nil => simpa using hwant
      | cons a l =>
        have := hi.queue.1
        rw [hh] at this
        cases this
    · intro hne
      cases q with
      | nil => exact absurd hi.queue hne
      | cons a l =>
        refine ⟨by rw [hwant]; simp, ?_⟩
        rw [hi.tail]
        intro hc
        have := List.getLast?_eq_none_iff.mp hc
        cases this
  · intro t ht
    by_cases hfast : s.fm.mutex_held = 0 ∧ s.fm.num_want_mutex = 0
    · obtain ⟨_, _, _, s1, a1, _⟩ := hi.lock_fast t ht hfast.1 hfast.2
      exact ⟨s1, a1⟩
    · obtain ⟨s1, a1, _⟩ := hi.lock_slow t ht hfast
      exact ⟨s1, a1⟩

end Fair

namespace InitCb

/-! ## Boot after a failed boot -/

/-- A boot whose constructor succeeds on `pre` and fails on the next entry
`e` stops there. -/
theorem boot_fails_at (cb : Nat → Int) (s : State) (pre post : List Nat) (e : Nat) (fuel : Nat)
    (hreg : IsRegistry s.heap s.postponed_mutexes (pre ++ e :: post))
    (hpre : ∀ m ∈ pre, cb m = 0) (he : cb e ≠ 0) (hfuel : pre.length < fuel) :
    ∃ s1, mutex_boot cb fuel s = some (true, s1) ∧
      s1.calls = s.calls ++ (pre.map (fun m => (m, (0 : Int))) ++ [(e, cb e)]) ∧
      IsRegistry s1.heap s1.postponed_mutexes (e :: post) ∧
      s1.postpone_init = false ∧
      (∀ m, m ∉ pre → (s1.heap m).lock = (s.heap m).lock) ∧
      (∀ m ∈ pre, (s1.heap m).lock = pthread_mutex_t.unlocked) := by
  obtain ⟨s1, d1, d2, d3, d4, d5, d6, d7⟩ :=
    boot_loop_drain cb (e :: post) pre { s with postpone_init := false }
      (fuel - pre.length) hreg hpre
  have hf : pre.length + (fuel - pre.length) = fuel := by omega
  rw [hf] at d1
  obtain ⟨k, hk⟩ : ∃ k, fuel - pre.length = k + 1 := ⟨fuel - pre.length - 1, by omega⟩
  rw [hk, boot_loop_fail cb k s1 e d3.1 he] at d1
  have hlock : ∀ m, ((init_calloc_cb s1 e (cb e)).heap m).lock = (s1.heap m).lock := by
    intro m
    simp only [init_calloc_cb, native_construct]
    split
    · simp [he]
    · rfl
  refine ⟨init_calloc_cb s1 e (cb e), d1, ?_, ?_, d2, ?_, ?_⟩
  · simp [init_calloc_cb, d4]
  · refine IsChain.congr ?_ d3
    intro a _
    simp only [init_calloc_cb]
    split <;> rfl
  · intro m hm
    rw [hlock m]
    exact d6 m hm
  · intro m hm
    rw [hlock m]
    exact d7 m hm

/-- C20, boot retry after a failure.  Let the registry list `pre ++ e ::
post`, and let a first `mutex_boot` succeed on `pre` and fail on `e`.  It
returns `true` with `postpone_init` clear and `e` at the head of the registry,
which lists `e :: post`.  A later `mutex_boot` whose constructor succeeds on
`e` and on `post` then returns `false`; the calls it makes are exactly those on
`e` and on `post`, once each and in that order, so none on a handle of `pre`;
it leaves `e` and `post` constructed, the locks of `pre` as the first boot
left them, and the registry empty. -/
theorem c20_boot_retry_after_failure
    (cb cb2 : Nat → Int) (s : State) (pre post : List Nat) (e : Nat) (fuel fuel2 : Nat)
    (hreg : IsRegistry s.heap s.postponed_mutexes (pre ++ e :: post))
    (hpre : ∀ m ∈ pre, cb m = 0) (he : cb e ≠ 0) (hfuel : pre.length < fuel)
    (hok : ∀ m ∈ e :: post, cb2 m = 0) (hfuel2 : post.length < fuel2) :
    ∃ s1 s2, mutex_boot cb fuel s = some (true, s1) ∧
      s1.postpone_init = false ∧ s1.postponed_mutexes = some e ∧
      IsRegistry s1.heap s1.postponed_mutexes (e :: post) ∧
      mutex_boot cb2 fuel2 s1 = some (false, s2) ∧
      s2.calls = s1.calls ++ (e :: post).map (fun m => (m, (0 : Int))) ∧
      (e :: post).Nodup ∧ (∀ m ∈ pre, m ∉ e :: post) ∧
      (∀ m ∈ e :: post, (s2.heap m).lock = pthread_mutex_t.unlocked) ∧
      (∀ m ∈ pre, (s2.heap m).lock = (s1.heap m).lock) ∧
      s2.postpone_init = false ∧ s2.postponed_mutexes = none := by
  have hnd := IsChain.nodup hreg
  have hnd2 := List.nodup_append.mp hnd
  obtain ⟨s1, a1, _, a3, a4, _, _⟩ := boot_fails_at cb s pre post e fuel hreg hpre he hfuel
  obtain ⟨s2, d1, d2, d3, d4, _, d6, d7⟩ :=
    boot_loop_drain cb2 [] (e :: post) { s1 with postpone_init := false }
      (fuel2 - (e :: post).length) (by simpa using a3) hok
  have hf : (e :: post).length + (fuel2 - (e :: post).length) = fuel2 := by
    simp only [List.length_cons]; omega
  rw [hf] at d1
  have hnone : s2.postponed_mutexes = none := by simpa [IsChain] using d3
  refine ⟨s1, s2, a1, a4, a3.1, a3, ?_, ?_, hnd2.2.1, ?_, d7, ?_, ?_, hnone⟩
  · unfold mutex_boot
    rw [d1]
    exact boot_loop_none cb2 _ s2 hnone
  · rw [d4]
  · intro m hm hin
    exact hnd2.2.2 hm hin
  · intro m hm
    exact d6 m (fun hin => hnd2.2.2 hm hin)
  · rw [d2]

theorem c20_boot_retry_after_failure_witness :
    ∃ s1 s2,
      mutex_boot (fun m => if m = 2 then 12 else 0) 2
        (register_all (fun _ => 0)
          (State.initial (fun _ => ⟨pthread_mutex_t.unconstructed, none⟩)) [1, 2, 3])
        = some (true, s1) ∧
      s1.postponed_mutexes = some 2 ∧
      mutex_boot (fun _ => 0) 2 s1 = some (false, s2) ∧
      s2.calls = s1.calls ++ [(2, 0), (1, 0)] ∧ s2.postponed_mutexes = none := by
  obtain ⟨s1, s2, h1, _, h3, _, h5, h6, _, _, _, _, _, h12⟩ :=
    c20_boot_retry_after_failure (fun m => if m = 2 then 12 else 0) (fun _ => 0)
      (register_all (fun _ => 0)
        (State.initial (fun _ => ⟨pthread_mutex_t.unconstructed, none⟩)) [1, 2, 3])
      [3] [1] 2 2 2 (by decide) (by decide) (by decide) (by decide) (fun _ _ => rfl)
      (by decide)
  exact ⟨s1, s2, h1, h3, h5, h6, h12⟩

end InitCb

end Jemalloc
